import Mathlib

/-!
# octahedron: equirectangular panorama to octahedral map

A shallow embedding of `sources/octahedron.cc`.

* `float` arithmetic is read as exact arithmetic: the per-pixel algebra of `Out::GetColor`
  is written over an arbitrary linearly ordered field `K` (so it can be evaluated over `ℚ`),
  and everything that needs `sqrt` or `atan2` is written over `ℝ`.
* `unsigned` values are natural numbers; the one place where wrap-around can happen
  (`image.Height() - 1`) is modelled with an explicit `% 2 ^ 32`.
* `std::atan2 (y, x)` is the argument of the complex number `x + y i`, which has the same
  range `(-π, π]`, the same value on the axes and the same value `0` at the origin.
* The sampler `In` is its virtual method, a function from directions to colours.

Two refinements of this reading are used where it is too coarse:

* Reals do not tell `-0.0` from `+0.0`, and `std::atan2` does. The definitions with the
  suffix `S` repeat the projector and the sampler over `SFloat`, a real with its sign bit,
  with the IEEE 754 rules for the sign of a zero result; their values are those of the
  real model (`Out.vectorS_vals`, `Equirectangular.eS_eq`).
* Reals do not round. The definitions with the suffix `F32` repeat the vector of
  `Out::GetColor` with every operation rounded to the nearest `float`.
-/

namespace Octahedron

/-! ## Data model -/

/-- The three components of a `tb::Vector<3, float>` (`v[0]`, `v[1]`, `v[2]`). -/
structure Vector3 (K : Type) where
  x : K
  y : K
  z : K

/-- Euclidean length of a vector. -/
noncomputable def Vector3.Length (v : Vector3 ℝ) : ℝ :=
  Real.sqrt (v.x * v.x + v.y * v.y + v.z * v.z)

/-- Modelled from the spec: `tb::Vector::Normalize` lives in `tb/vector.h`, which is not part
of the sources. The spec describes it as "normalize to unit length": every component is
divided by the Euclidean length of the vector. -/
noncomputable def Vector3.Normalize (v : Vector3 ℝ) : Vector3 ℝ :=
  ⟨v.x / v.Length, v.y / v.Length, v.z / v.Length⟩

/-- Modelled from the spec: `tb::Image` lives in `tb/image.h`, which is not part of the
sources. The spec describes it as "a 2D grid of texels with fixed width and height,
addressable by integer (x, y)"; `pixel y x` is the texel `image[y][x]`. -/
structure Image (C : Type) where
  Width : ℕ
  Height : ℕ
  pixel : ℕ → ℕ → C

/-- The assignment `image[y][x] = c`. -/
def Image.set {C : Type} (image : Image C) (y x : ℕ) (c : C) : Image C :=
  { image with
    pixel := fun y1 x1 => if y1 = y ∧ x1 = x then c else image.pixel y1 x1 }

/-- Subtraction of two `unsigned` values (32 bits, wrapping). -/
def unsignedSub (a b : ℕ) : ℕ := (a + 2 ^ 32 - b) % 2 ^ 32

/-- The function `std::atan2 (y, x)` over the reals, without the sign bit of a zero argument
(`SFloat.atan2` is the version with sign bits). -/
noncomputable def atan2 (y x : ℝ) : ℝ := Complex.arg ⟨x, y⟩

/-! ## `struct Out`: the octahedral projector -/

section Projector

variable (K : Type) [LinearOrderedField K]

/-- `Out::Fold`. -/
def Out.Fold {K : Type} [LinearOrderedField K] (a s : K) : K := (1 - a) * s

/-- The local `xx` of `Out::GetColor`: `(2.0f * x) / image.Width() - 1`. -/
def Out.xx (W x : ℕ) : K := (2 * (x : K)) / (W : K) - 1

/-- The local `yy` of `Out::GetColor`: `(2.0f * y) / image.Height() - 1`. -/
def Out.yy (H y : ℕ) : K := (2 * (y : K)) / (H : K) - 1

/-- The local `ax` of `Out::GetColor`. -/
def Out.ax (W x : ℕ) : K := |Out.xx K W x|

/-- The local `ay` of `Out::GetColor`. -/
def Out.ay (H y : ℕ) : K := |Out.yy K H y|

/-- The local `sx` of `Out::GetColor`: `std::signbit(xx) ? -1 : 1`. -/
def Out.sx (W x : ℕ) : K := if Out.xx K W x < 0 then -1 else 1

/-- The local `sy` of `Out::GetColor`: `std::signbit(yy) ? -1 : 1`. -/
def Out.sy (H y : ℕ) : K := if Out.yy K H y < 0 then -1 else 1

/-- The local `h` of `Out::GetColor`: `1.0f - ax - ay`. -/
def Out.h (W H x y : ℕ) : K := 1 - Out.ax K W x - Out.ay K H y

/-- The vector `v` that `Out::GetColor` builds for pixel `(x, y)` of a `W × H` image, as it is
just before `v.Normalize()`: the lower branch when `h < 0`, the upper branch otherwise. -/
def Out.vector (W H x y : ℕ) : Vector3 K :=
  let xx : K := (2 * (x : K)) / (W : K) - 1
  let yy : K := (2 * (y : K)) / (H : K) - 1
  let ax : K := |xx|
  let ay : K := |yy|
  let sx : K := if xx < 0 then -1 else 1
  let sy : K := if yy < 0 then -1 else 1
  let h : K := 1 - ax - ay
  if h < 0 then
    ⟨-sx * sy * Out.Fold ay sy, sx * sy * Out.Fold ax sx, h⟩
  else
    ⟨-xx, yy, h⟩

/-- The vector of the lower branch (`h < 0`) of `Out::GetColor`, as a function of the locals
`xx` and `yy`. -/
def Out.lower {K : Type} [LinearOrderedField K] (xx yy : K) : Vector3 K :=
  let ax : K := |xx|
  let ay : K := |yy|
  let sx : K := if xx < 0 then -1 else 1
  let sy : K := if yy < 0 then -1 else 1
  let h : K := 1 - ax - ay
  ⟨-sx * sy * Out.Fold ay sy, sx * sy * Out.Fold ax sx, h⟩

/-- The vector of the upper branch of `Out::GetColor`, as a function of the locals `xx`
and `yy`. -/
def Out.upper {K : Type} [LinearOrderedField K] (xx yy : K) : Vector3 K :=
  let ax : K := |xx|
  let ay : K := |yy|
  let h : K := 1 - ax - ay
  ⟨-xx, yy, h⟩

end Projector

/-- The direction that `Out::GetColor` hands to the sampler for pixel `(x, y)`:
the vector `v` after `v.Normalize()`. -/
noncomputable def Out.direction (W H x y : ℕ) : Vector3 ℝ :=
  (Out.vector ℝ W H x y).Normalize

/-- `Out::GetColor`: from texture coordinates to a direction in space, then `in.GetColor`. -/
noncomputable def Out.GetColor {C : Type} (image : Image C) (inp : Vector3 ℝ → C)
    (x y : ℕ) : C :=
  let xx : ℝ := (2 * (x : ℝ)) / (image.Width : ℝ) - 1
  let yy : ℝ := (2 * (y : ℝ)) / (image.Height : ℝ) - 1
  let ax : ℝ := |xx|
  let ay : ℝ := |yy|
  let sx : ℝ := if xx < 0 then -1 else 1
  let sy : ℝ := if yy < 0 then -1 else 1
  let h : ℝ := 1 - ax - ay
  if h < 0 then
    inp (Vector3.Normalize ⟨-sx * sy * Out.Fold ay sy, sx * sy * Out.Fold ax sx, h⟩)
  else
    inp (Vector3.Normalize ⟨-xx, yy, h⟩)

/-- The inner loop of the constructor `Out::Out`:
`for (unsigned x(0); x < image.Width(); ++x) image[y][x] = GetColor(x, y);`. -/
noncomputable def Out.fillRow {C : Type} (inp : Vector3 ℝ → C) (y : ℕ)
    (image : Image C) : Image C :=
  (List.range image.Width).foldl
    (fun img x => img.set y x (Out.GetColor img inp x y)) image

/-- The constructor `Out::Out`: the loop over the rows `y < image.Height()`, each filled by
the inner loop. The result is the destination image as the constructor leaves it. -/
noncomputable def Out.construct {C : Type} (i : Image C) (inp : Vector3 ℝ → C) : Image C :=
  (List.range i.Height).foldl (fun img y => Out.fillRow inp y img) i

/-- The inner loop of the constructor `Out::Out` with a log of the calls of `GetColor`:
every evaluation of `GetColor(x, y)`, which calls the sampler once, appends `(x, y)`. -/
noncomputable def Out.fillRowLogged {C : Type} (inp : Vector3 ℝ → C) (y : ℕ)
    (st : Image C × List (ℕ × ℕ)) : Image C × List (ℕ × ℕ) :=
  (List.range st.1.Width).foldl
    (fun s x => (s.1.set y x (Out.GetColor s.1 inp x y), s.2 ++ [(x, y)])) st

/-- The constructor `Out::Out` with a log of the calls of `GetColor`, in the order in which
the two loops make them. -/
noncomputable def Out.constructLogged {C : Type} (i : Image C) (inp : Vector3 ℝ → C) :
    Image C × List (ℕ × ℕ) :=
  (List.range i.Height).foldl (fun s y => Out.fillRowLogged inp y s) (i, [])

/-- The product of a vector by a scalar. -/
def Vector3.scale {K : Type} [LinearOrderedField K] (k : K) (v : Vector3 K) : Vector3 K :=
  ⟨k * v.x, k * v.y, k * v.z⟩

/-! ## `struct Equirectangular`: the equirectangular sampler -/

/-- The local `e` (elevation) of `Equirectangular::GetColor`. -/
noncomputable def Equirectangular.e (v : Vector3 ℝ) : ℝ :=
  atan2 v.z (Real.sqrt (v.x * v.x + v.y * v.y))

/-- The local `d` (azimuth) of `Equirectangular::GetColor`. -/
noncomputable def Equirectangular.d (v : Vector3 ℝ) : ℝ :=
  atan2 v.y v.x

/-- The first argument of `image.Get` in `Equirectangular::GetColor`, for a source of
width `W`. -/
noncomputable def Equirectangular.px (W : ℕ) (v : Vector3 ℝ) : ℝ :=
  ((Equirectangular.d v / Real.pi) + 1) * (W : ℝ) / 2

/-- The second argument of `image.Get` in `Equirectangular::GetColor`, for a source of
height `H`; `image.Height() - 1` is an `unsigned` subtraction. -/
noncomputable def Equirectangular.py (H : ℕ) (v : Vector3 ℝ) : ℝ :=
  ((-Equirectangular.e v / Real.pi) + 0.5) * ((unsignedSub H 1 : ℕ) : ℝ)

/-- `Equirectangular::GetColor`. The lookup primitive `tb::Image::Get (float, float)` is
declared in `tb/image.h`, not part of the sources, and is a parameter here. -/
noncomputable def Equirectangular.GetColor {C : Type} (Get : Image C → ℝ → ℝ → C)
    (image : Image C) (v : Vector3 ℝ) : C :=
  Get image (Equirectangular.px image.Width v) (Equirectangular.py image.Height v)

/-! ## `struct App`: the driver -/

/-- The local `length` of `App::Main`. -/
def App.length {C : Type} (inImage : Image C) : ℕ :=
  if inImage.Width < inImage.Height then inImage.Height else inImage.Width

/-- The constructor `tb::Canvas (width, height)` seen as an image; `init` is whatever the
fresh canvas holds. -/
def Canvas {C : Type} (width height : ℕ) (init : ℕ → ℕ → C) : Image C :=
  ⟨width, height, init⟩

/-- `App::Main` from the loaded source image to the image that is saved. -/
noncomputable def App.Main {C : Type} (Get : Image C → ℝ → ℝ → C) (inImage : Image C)
    (init : ℕ → ℕ → C) : Image C :=
  let length : ℕ := App.length inImage
  let outCanvas : Image C := Canvas length length init
  Out.construct outCanvas (Equirectangular.GetColor Get inImage)

/-! ## The formulas as the specification words them -/

/-- The sign indicator of the specification: `+1` or `-1`, zero counted as positive. -/
def Spec.sign {K : Type} [LinearOrderedField K] (a : K) : K := if 0 ≤ a then 1 else -1

/-- The fold transform of the specification: `fold (a, s) = (1 - a) * s`. -/
def Spec.fold {K : Type} [LinearOrderedField K] (a s : K) : K := (1 - a) * s

/-- The lower-hemisphere formula of the specification, in terms of `u` and `v`. -/
def Spec.lower {K : Type} [LinearOrderedField K] (u v : K) : Vector3 K :=
  ⟨-Spec.sign u * Spec.sign v * Spec.fold |v| (Spec.sign v),
    Spec.sign u * Spec.sign v * Spec.fold |u| (Spec.sign u), 1 - |u| - |v|⟩

/-- The upper-hemisphere formula of the specification, in terms of `u` and `v`. -/
def Spec.upper {K : Type} [LinearOrderedField K] (u v : K) : Vector3 K :=
  ⟨-u, v, 1 - |u| - |v|⟩

/-- The direction of the specification before normalization, for pixel `(x, y)` of a `W × H`
image: `u = 2x/W - 1`, `v = 2y/H - 1`, upper formula when `h ≥ 0`, lower when `h < 0`. -/
def Spec.dir (K : Type) [LinearOrderedField K] (W H x y : ℕ) : Vector3 K :=
  let u : K := 2 * (x : K) / (W : K) - 1
  let v : K := 2 * (y : K) / (H : K) - 1
  if 0 ≤ 1 - |u| - |v| then Spec.upper u v else Spec.lower u v

/-- The spherical parametrisation: the unit vector of azimuth `a` and elevation `el`. -/
noncomputable def Spec.spherical (a el : ℝ) : Vector3 ℝ :=
  ⟨Real.cos el * Real.cos a, Real.cos el * Real.sin a, Real.sin el⟩

/-- The axis-aligned unit vectors named by the corner property:
`(±1, 0, 0)`, `(0, ±1, 0)` and `(0, 0, -1)`. -/
def Spec.axisAligned (v : Vector3 ℝ) : Prop :=
  v = ⟨1, 0, 0⟩ ∨ v = ⟨-1, 0, 0⟩ ∨ v = ⟨0, 1, 0⟩ ∨ v = ⟨0, -1, 0⟩ ∨ v = ⟨0, 0, -1⟩

/-! ## Signed zeros

IEEE 754 keeps a sign bit on zero, and `std::atan2` looks at it. The definitions below
repeat the projector and the sampler over reals that carry their sign bit, so that `-0.0`
and `+0.0` are told apart; values are still exact. -/

/-- A `float` read as an exact real together with its sign bit. The bit is only consulted
when the value is zero (see `SFloat.signbit`). -/
structure SFloat where
  val : ℝ
  sign : Bool

/-- The function `std::signbit`: decided by the value unless the value is zero. -/
noncomputable def SFloat.signbit (a : SFloat) : Bool :=
  if a.val < 0 then true else if 0 < a.val then false else a.sign

/-- Conversion of an `unsigned` to `float`. -/
noncomputable def SFloat.ofNat (n : ℕ) : SFloat := ⟨(n : ℝ), false⟩

/-- The constant `1` (also `1.0f`). -/
noncomputable def SFloat.one : SFloat := ⟨1, false⟩

/-- The constant `2.0f`. -/
noncomputable def SFloat.two : SFloat := ⟨2, false⟩

/-- The constant `-1`. -/
noncomputable def SFloat.negOne : SFloat := ⟨-1, true⟩

/-- Unary minus: flips the sign bit. -/
noncomputable def SFloat.neg (a : SFloat) : SFloat := ⟨-a.val, !a.signbit⟩

/-- Product: the sign bit is the exclusive or of the sign bits. -/
noncomputable def SFloat.mul (a b : SFloat) : SFloat :=
  ⟨a.val * b.val, xor a.signbit b.signbit⟩

/-- Quotient: the sign bit is the exclusive or of the sign bits. -/
noncomputable def SFloat.div (a b : SFloat) : SFloat :=
  ⟨a.val / b.val, xor a.signbit b.signbit⟩

/-- Sum: a zero sum is `-0.0` only when both terms are negative (two negative zeros). -/
noncomputable def SFloat.add (a b : SFloat) : SFloat :=
  ⟨a.val + b.val, a.signbit && b.signbit⟩

/-- Difference `a - b = a + (-b)`: a zero difference is `-0.0` only for `(-0.0) - (+0.0)`. -/
noncomputable def SFloat.sub (a b : SFloat) : SFloat :=
  ⟨a.val - b.val, a.signbit && !b.signbit⟩

/-- The function `std::fabs`: clears the sign bit. -/
noncomputable def SFloat.abs (a : SFloat) : SFloat := ⟨|a.val|, false⟩

/-- The function `std::sqrt`: keeps the sign bit of a zero. -/
noncomputable def SFloat.sqrt (a : SFloat) : SFloat := ⟨Real.sqrt a.val, a.signbit⟩

/-- The function `std::atan2 (y, x)` with the IEEE 754 treatment of signed zeros: when `y` is
a zero and `x` is negative or `-0.0`, the result is `π` for `y = +0.0` and `-π` for
`y = -0.0`; in every other case it is the argument of `x + y i` (which is `0` for `y = ±0`
and `x` positive or `+0.0`). The sign of a zero result is dropped: the sampler only adds
`1.0f` or `0.5f` to a multiple of it. -/
noncomputable def SFloat.atan2 (y x : SFloat) : ℝ :=
  if y.val = 0 ∧ x.signbit = true then
    (if y.signbit = true then -Real.pi else Real.pi)
  else Complex.arg ⟨x.val, y.val⟩

/-- The values of the components of a vector. -/
def Vector3.vals (v : Vector3 SFloat) : Vector3 ℝ := ⟨v.x.val, v.y.val, v.z.val⟩

/-- Modelled from the spec: `tb::Vector::Normalize` ("normalize to unit length") over reals
with sign bits: every component is divided by the Euclidean length. -/
noncomputable def Vector3.NormalizeS (v : Vector3 SFloat) : Vector3 SFloat :=
  let l : SFloat :=
    SFloat.sqrt (SFloat.add (SFloat.add (SFloat.mul v.x v.x) (SFloat.mul v.y v.y))
      (SFloat.mul v.z v.z))
  ⟨SFloat.div v.x l, SFloat.div v.y l, SFloat.div v.z l⟩

/-- `Out::Fold` with sign bits. -/
noncomputable def Out.FoldS (a s : SFloat) : SFloat := SFloat.mul (SFloat.sub SFloat.one a) s

/-- The local `xx` of `Out::GetColor` with its sign bit; `yy` is the same expression in `y`
and the height. -/
noncomputable def Out.xxS (W x : ℕ) : SFloat :=
  SFloat.sub (SFloat.div (SFloat.mul SFloat.two (SFloat.ofNat x)) (SFloat.ofNat W)) SFloat.one

/-- The vector `v` that `Out::GetColor` builds for pixel `(x, y)`, just before
`v.Normalize()`, with sign bits. -/
noncomputable def Out.vectorS (W H x y : ℕ) : Vector3 SFloat :=
  let xx : SFloat :=
    SFloat.sub (SFloat.div (SFloat.mul SFloat.two (SFloat.ofNat x)) (SFloat.ofNat W))
      SFloat.one
  let yy : SFloat :=
    SFloat.sub (SFloat.div (SFloat.mul SFloat.two (SFloat.ofNat y)) (SFloat.ofNat H))
      SFloat.one
  let ax : SFloat := SFloat.abs xx
  let ay : SFloat := SFloat.abs yy
  let sx : SFloat := if xx.signbit = true then SFloat.negOne else SFloat.one
  let sy : SFloat := if yy.signbit = true then SFloat.negOne else SFloat.one
  let h : SFloat := SFloat.sub (SFloat.sub SFloat.one ax) ay
  if h.val < 0 then
    ⟨SFloat.mul (SFloat.mul (SFloat.neg sx) sy) (Out.FoldS ay sy),
      SFloat.mul (SFloat.mul sx sy) (Out.FoldS ax sx), h⟩
  else
    ⟨SFloat.neg xx, yy, h⟩

/-- The direction that `Out::GetColor` hands to the sampler, with sign bits. -/
noncomputable def Out.directionS (W H x y : ℕ) : Vector3 SFloat :=
  (Out.vectorS W H x y).NormalizeS

/-- The local `d` of `Equirectangular::GetColor`, on a vector with sign bits. -/
noncomputable def Equirectangular.dS (v : Vector3 SFloat) : ℝ :=
  SFloat.atan2 v.y v.x

/-- The first argument of `image.Get`, on a vector with sign bits. -/
noncomputable def Equirectangular.pxS (W : ℕ) (v : Vector3 SFloat) : ℝ :=
  ((Equirectangular.dS v / Real.pi) + 1) * (W : ℝ) / 2

/-- Rounding of a rational to the nearest integer, ties to even. -/
def F32.roundEven (t : ℚ) : ℤ :=
  if t - (⌊t⌋ : ℚ) < 1 / 2 then ⌊t⌋
  else if 1 / 2 < t - (⌊t⌋ : ℚ) then ⌊t⌋ + 1
  else if ⌊t⌋ % 2 = 0 then ⌊t⌋ else ⌊t⌋ + 1

/-- The unit in the last place of the `float` binade of `q`: `2 ^ (e - 23)` with
`2 ^ e ≤ |q| < 2 ^ (e + 1)`. -/
def F32.ulp (q : ℚ) : ℚ := (2 : ℚ) ^ (Int.log 2 |q| - 23)

/-- Rounding of a rational to the nearest `float`, ties to even. -/
def F32.round (q : ℚ) : ℚ :=
  if q = 0 then 0 else (F32.roundEven (q / F32.ulp q) : ℚ) * F32.ulp q

theorem Vector3.ext_iff3 {K : Type} (v w : Vector3 K) :
    v = w ↔ v.x = w.x ∧ v.y = w.y ∧ v.z = w.z := by
  cases v; cases w; simp

/-- The two branches of `Out::GetColor` hand the normalized `Out.vector` to the sampler. -/
theorem Out.GetColor_eq {C : Type} (image : Image C) (inp : Vector3 ℝ → C) (x y : ℕ) :
    Out.GetColor image inp x y = inp (Out.direction image.Width image.Height x y) := by
  unfold Out.GetColor Out.direction Out.vector
  by_cases hh : 1 - |2 * (x : ℝ) / (image.Width : ℝ) - 1|
      - |2 * (y : ℝ) / (image.Height : ℝ) - 1| < 0
  · simp only [hh, if_true]
  · simp only [hh, if_false]

/-- The vector of `Out::GetColor` in terms of the named locals. -/
theorem Out.vector_eq (K : Type) [LinearOrderedField K] (W H x y : ℕ) :
    Out.vector K W H x y =
      if Out.h K W H x y < 0 then
        ⟨-Out.sx K W x * Out.sy K H y * Out.Fold (Out.ay K H y) (Out.sy K H y),
          Out.sx K W x * Out.sy K H y * Out.Fold (Out.ax K W x) (Out.sx K W x),
          Out.h K W H x y⟩
      else ⟨-Out.xx K W x, Out.yy K H y, Out.h K W H x y⟩ := by
  rfl

/-- The vector built by the code is the one the specification describes. -/
theorem Out.vector_eq_spec (K : Type) [LinearOrderedField K] (W H x y : ℕ) :
    Out.vector K W H x y = Spec.dir K W H x y := by
  unfold Out.vector Spec.dir Spec.upper Spec.lower Spec.sign Spec.fold Out.Fold
  simp only []
  by_cases hh : 1 - |2 * (x : K) / (W : K) - 1| - |2 * (y : K) / (H : K) - 1| < 0
  · have hh2 : ¬ (0 ≤ 1 - |2 * (x : K) / (W : K) - 1| - |2 * (y : K) / (H : K) - 1|) :=
      not_le.mpr hh
    simp only [hh, hh2, if_true, if_false]
    by_cases hx : 2 * (x : K) / (W : K) - 1 < 0 <;>
      by_cases hy : 2 * (y : K) / (H : K) - 1 < 0 <;>
      simp [hx, hy, not_le.mpr, not_lt.mp]
  · have hh2 : 0 ≤ 1 - |2 * (x : K) / (W : K) - 1| - |2 * (y : K) / (H : K) - 1| :=
      not_lt.mp hh
    simp only [hh, hh2, if_true, if_false]

theorem Image.set_Width {C : Type} (image : Image C) (y x : ℕ) (c : C) :
    (image.set y x c).Width = image.Width := rfl

theorem Image.set_Height {C : Type} (image : Image C) (y x : ℕ) (c : C) :
    (image.set y x c).Height = image.Height := rfl

/-- What a run of the inner loop body over the columns `l` leaves in the image. -/
theorem Out.fillRow_list {C : Type} (inp : Vector3 ℝ → C) (y : ℕ) (l : List ℕ) :
    ∀ image : Image C,
      let r := l.foldl (fun img x => img.set y x (Out.GetColor img inp x y)) image
      r.Width = image.Width ∧ r.Height = image.Height ∧
        ∀ y1 x1, r.pixel y1 x1 =
          if y1 = y ∧ x1 ∈ l then inp (Out.direction image.Width image.Height x1 y)
          else image.pixel y1 x1 := by
  induction l with
  | nil => intro image; simp
  | cons a l ih =>
    intro image
    have h := ih (image.set y a (Out.GetColor image inp a y))
    simp only [List.foldl_cons]
    refine ⟨h.1, h.2.1, ?_⟩
    intro y1 x1
    rw [h.2.2 y1 x1]
    simp only [Image.set_Width, Image.set_Height, Image.set, List.mem_cons, Out.GetColor_eq]
    by_cases hy : y1 = y <;> by_cases hl : x1 ∈ l <;> by_cases ha : x1 = a <;>
      simp [hy, hl, ha]

/-- What the inner loop of the constructor leaves in the image. -/
theorem Out.fillRow_spec {C : Type} (inp : Vector3 ℝ → C) (y : ℕ) (image : Image C) :
    (Out.fillRow inp y image).Width = image.Width ∧
      (Out.fillRow inp y image).Height = image.Height ∧
      ∀ y1 x1, (Out.fillRow inp y image).pixel y1 x1 =
        if y1 = y ∧ x1 < image.Width then inp (Out.direction image.Width image.Height x1 y)
        else image.pixel y1 x1 := by
  have h := Out.fillRow_list inp y (List.range image.Width) image
  simp only [List.mem_range] at h
  exact h

/-- What a run of the outer loop body over the rows `l` leaves in the image. -/
theorem Out.rows_list {C : Type} (inp : Vector3 ℝ → C) (l : List ℕ) :
    ∀ image : Image C,
      let r := l.foldl (fun img y => Out.fillRow inp y img) image
      r.Width = image.Width ∧ r.Height = image.Height ∧
        ∀ y1 x1, r.pixel y1 x1 =
          if y1 ∈ l ∧ x1 < image.Width then
            inp (Out.direction image.Width image.Height x1 y1)
          else image.pixel y1 x1 := by
  induction l with
  | nil => intro image; simp
  | cons a l ih =>
    intro image
    have h := ih (Out.fillRow inp a image)
    have hr := Out.fillRow_spec inp a image
    simp only [List.foldl_cons]
    rw [hr.1, hr.2.1] at h
    refine ⟨h.1, h.2.1, ?_⟩
    intro y1 x1
    rw [h.2.2 y1 x1, hr.2.2 y1 x1]
    simp only [List.mem_cons]
    by_cases hy : y1 = a <;> by_cases hl : y1 ∈ l <;> by_cases hx : x1 < image.Width <;>
      simp [hy, hl, hx]

/-- What the constructor `Out::Out` leaves in the image. -/
theorem Out.construct_spec {C : Type} (i : Image C) (inp : Vector3 ℝ → C) :
    (Out.construct i inp).Width = i.Width ∧ (Out.construct i inp).Height = i.Height ∧
      ∀ y x, (Out.construct i inp).pixel y x =
        if y < i.Height ∧ x < i.Width then inp (Out.direction i.Width i.Height x y)
        else i.pixel y x := by
  have h := Out.rows_list inp (List.range i.Height) i
  simp only [List.mem_range] at h
  exact h

/-! ## The per-pixel algebra -/

section Algebra

variable {K : Type} [LinearOrderedField K]

/-- For a pixel index inside the image the normalized coordinate lies in `[-1, 1)`. -/
theorem Out.xx_mem (W x : ℕ) (hx : x < W) :
    (-1 : K) ≤ Out.xx K W x ∧ Out.xx K W x < 1 := by
  have hW : (0 : K) < (W : K) := by exact_mod_cast Nat.lt_of_le_of_lt (Nat.zero_le x) hx
  have hx0 : (0 : K) ≤ (x : K) := Nat.cast_nonneg x
  have hxW : (x : K) < (W : K) := by exact_mod_cast hx
  unfold Out.xx
  constructor
  · have : (0 : K) ≤ 2 * (x : K) / (W : K) := by positivity
    linarith
  · have : 2 * (x : K) / (W : K) < 2 := by
      rw [div_lt_iff₀ hW]; linarith
    linarith

theorem Out.ax_le_one (W x : ℕ) (hx : x < W) : Out.ax K W x ≤ 1 := by
  have h := Out.xx_mem (K := K) W x hx
  unfold Out.ax
  exact abs_le.mpr ⟨h.1, h.2.le⟩

theorem Out.sx_mul_self (W x : ℕ) : Out.sx K W x * Out.sx K W x = 1 := by
  unfold Out.sx; split_ifs <;> norm_num

theorem Out.abs_sx (W x : ℕ) : |Out.sx K W x| = 1 := by
  unfold Out.sx; split_ifs <;> simp

theorem Out.abs_sy (H y : ℕ) : |Out.sy K H y| = 1 := Out.abs_sx H y

theorem Out.sx_mul_ax (W x : ℕ) : Out.sx K W x * Out.ax K W x = Out.xx K W x := by
  unfold Out.sx Out.ax
  split_ifs with h
  · rw [abs_of_neg h]; ring
  · rw [abs_of_nonneg (not_lt.mp h)]; ring

/-- The lower branch of `Out::GetColor` with the squares of the signs cancelled: the
standard octahedral decode. -/
theorem Out.vector_lower (W H x y : ℕ) (hh : Out.h K W H x y < 0) :
    Out.vector K W H x y =
      ⟨-Out.sx K W x * (1 - Out.ay K H y), Out.sy K H y * (1 - Out.ax K W x),
        Out.h K W H x y⟩ := by
  rw [Out.vector_eq, if_pos hh, Vector3.ext_iff3]
  have e1 := Out.sx_mul_self (K := K) W x
  have e2 := Out.sx_mul_self (K := K) H y
  have e3 : Out.sy K H y = Out.sx K H y := rfl
  refine ⟨?_, ?_, rfl⟩
  · simp only [Out.Fold, e3]
    calc -Out.sx K W x * Out.sx K H y * ((1 - Out.ay K H y) * Out.sx K H y)
        = -Out.sx K W x * (1 - Out.ay K H y) * (Out.sx K H y * Out.sx K H y) := by ring
      _ = -Out.sx K W x * (1 - Out.ay K H y) := by rw [e2, mul_one]
  · simp only [Out.Fold, e3]
    calc Out.sx K W x * Out.sx K H y * ((1 - Out.ax K W x) * Out.sx K W x)
        = Out.sx K H y * (1 - Out.ax K W x) * (Out.sx K W x * Out.sx K W x) := by ring
      _ = Out.sx K H y * (1 - Out.ax K W x) := by rw [e1, mul_one]

theorem Out.vector_upper (W H x y : ℕ) (hh : ¬ Out.h K W H x y < 0) :
    Out.vector K W H x y = ⟨-Out.xx K W x, Out.yy K H y, Out.h K W H x y⟩ := by
  rw [Out.vector_eq, if_neg hh]

/-- The vector built before normalization lies on the unit octahedron. -/
theorem Out.vector_l1 (W H x y : ℕ) (hx : x < W) (hy : y < H) :
    |(Out.vector K W H x y).x| + |(Out.vector K W H x y).y| + |(Out.vector K W H x y).z|
      = 1 := by
  have hax := Out.ax_le_one (K := K) W x hx
  have hay : Out.ay K H y ≤ 1 := Out.ax_le_one (K := K) H y hy
  by_cases hh : Out.h K W H x y < 0
  · rw [Out.vector_lower W H x y hh]
    simp only [abs_mul, abs_neg, Out.abs_sx, Out.abs_sy, one_mul]
    rw [abs_of_nonneg (by linarith : (0 : K) ≤ 1 - Out.ay K H y),
      abs_of_nonneg (by linarith : (0 : K) ≤ 1 - Out.ax K W x), abs_of_neg hh]
    unfold Out.h
    ring
  · rw [Out.vector_upper W H x y hh]
    simp only [abs_neg]
    rw [abs_of_nonneg (not_lt.mp hh)]
    unfold Out.h Out.ax Out.ay Out.yy Out.xx
    ring

/-- The vector built before normalization has a positive squared length. -/
theorem Out.vector_sq_pos (W H x y : ℕ) (hx : x < W) (hy : y < H) :
    0 < (Out.vector K W H x y).x * (Out.vector K W H x y).x
      + (Out.vector K W H x y).y * (Out.vector K W H x y).y
      + (Out.vector K W H x y).z * (Out.vector K W H x y).z := by
  have h1 := Out.vector_l1 (K := K) W H x y hx hy
  by_contra hn
  have ha := mul_self_nonneg (Out.vector K W H x y).x
  have hb := mul_self_nonneg (Out.vector K W H x y).y
  have hc := mul_self_nonneg (Out.vector K W H x y).z
  have za : (Out.vector K W H x y).x = 0 := mul_self_eq_zero.mp (by linarith)
  have zb : (Out.vector K W H x y).y = 0 := mul_self_eq_zero.mp (by linarith)
  have zc : (Out.vector K W H x y).z = 0 := mul_self_eq_zero.mp (by linarith)
  rw [za, zb, zc] at h1
  simp at h1

end Algebra

/-- Normalizing a vector of positive squared length gives a vector of length one. -/
theorem Vector3.Length_Normalize (v : Vector3 ℝ)
    (hv : 0 < v.x * v.x + v.y * v.y + v.z * v.z) : v.Normalize.Length = 1 := by
  have hl : 0 < v.Length := Real.sqrt_pos.mpr hv
  have hsq : v.Length * v.Length = v.x * v.x + v.y * v.y + v.z * v.z :=
    Real.mul_self_sqrt hv.le
  have e : v.Normalize.x * v.Normalize.x + v.Normalize.y * v.Normalize.y
      + v.Normalize.z * v.Normalize.z = 1 := by
    simp only [Vector3.Normalize]
    field_simp
    linarith
  unfold Vector3.Length at *
  rw [e, Real.sqrt_one]

/-- A vector of length one is left alone by normalization. -/
theorem Vector3.Normalize_of_Length_one (v : Vector3 ℝ) (hv : v.Length = 1) :
    v.Normalize = v := by
  cases v
  simp [Vector3.Normalize, hv]

/-! ## `atan2` and `unsigned` arithmetic -/

theorem atan2_mem (y x : ℝ) : -Real.pi < atan2 y x ∧ atan2 y x ≤ Real.pi :=
  ⟨Complex.neg_pi_lt_arg _, Complex.arg_le_pi _⟩

/-- Scaling both arguments by a positive factor does not change `atan2`. -/
theorem atan2_scale (r y x : ℝ) (hr : 0 < r) : atan2 (r * y) (r * x) = atan2 y x := by
  unfold atan2
  have e : (⟨r * x, r * y⟩ : ℂ) = (r : ℂ) * ⟨x, y⟩ := by
    apply Complex.ext <;> simp
  rw [e, Complex.arg_real_mul _ hr]

/-- The function `atan2` inverts the parametrisation of the unit circle on `(-π, π]`. -/
theorem atan2_sin_cos (t : ℝ) (h1 : -Real.pi < t) (h2 : t ≤ Real.pi) :
    atan2 (Real.sin t) (Real.cos t) = t := by
  unfold atan2
  have e : (⟨Real.cos t, Real.sin t⟩ : ℂ)
      = Complex.cos (t : ℂ) + Complex.sin (t : ℂ) * Complex.I := by
    apply Complex.ext <;> simp [← Complex.ofReal_cos, ← Complex.ofReal_sin]
  rw [e, Complex.arg_cos_add_sin_mul_I ⟨h1, h2⟩]

theorem atan2_eq_pi_iff (y x : ℝ) : atan2 y x = Real.pi ↔ x < 0 ∧ y = 0 := by
  unfold atan2
  rw [Complex.arg_eq_pi_iff]

theorem atan2_one_zero : atan2 1 0 = Real.pi / 2 := by
  unfold atan2
  have e : (⟨0, 1⟩ : ℂ) = Complex.I := by apply Complex.ext <;> simp
  rw [e, Complex.arg_I]

theorem atan2_neg_one_zero : atan2 (-1) 0 = -(Real.pi / 2) := by
  unfold atan2
  have e : (⟨0, -1⟩ : ℂ) = -Complex.I := by apply Complex.ext <;> simp
  rw [e, Complex.arg_neg_I]

theorem atan2_zero_zero : atan2 0 0 = 0 := by
  unfold atan2
  have e : (⟨0, 0⟩ : ℂ) = 0 := by apply Complex.ext <;> simp
  rw [e, Complex.arg_zero]

/-- For a non-empty image the `unsigned` value `image.Height() - 1` is the integer
`H - 1`. -/
theorem unsignedSub_one (H : ℕ) (h1 : 1 ≤ H) (h2 : H < 2 ^ 32) :
    ((unsignedSub H 1 : ℕ) : ℝ) = (H : ℝ) - 1 := by
  have e : unsignedSub H 1 = H - 1 := by
    unfold unsignedSub
    omega
  rw [e, Nat.cast_sub h1, Nat.cast_one]

/-- For an image without rows the `unsigned` value `image.Height() - 1` wraps around. -/
theorem unsignedSub_zero_one : unsignedSub 0 1 = 4294967295 := by
  decide

theorem Equirectangular.e_top : Equirectangular.e ⟨0, 0, 1⟩ = Real.pi / 2 := by
  simp [Equirectangular.e, atan2_one_zero]

theorem Equirectangular.e_bottom : Equirectangular.e ⟨0, 0, -1⟩ = -(Real.pi / 2) := by
  simp [Equirectangular.e, atan2_neg_one_zero]

theorem Equirectangular.e_spherical (a el : ℝ) (h1 : -(Real.pi / 2) < el)
    (h2 : el < Real.pi / 2) : Equirectangular.e (Spec.spherical a el) = el := by
  have hc : 0 < Real.cos el := Real.cos_pos_of_mem_Ioo ⟨h1, h2⟩
  have hs : Real.cos el * Real.cos a * (Real.cos el * Real.cos a)
      + Real.cos el * Real.sin a * (Real.cos el * Real.sin a)
      = Real.cos el * Real.cos el := by
    have := Real.sin_sq_add_cos_sq a
    nlinarith [this]
  simp only [Equirectangular.e, Spec.spherical]
  rw [hs, Real.sqrt_mul_self hc.le]
  have hpi := Real.pi_pos
  exact atan2_sin_cos el (by linarith) (by linarith)

theorem Equirectangular.d_spherical (a el : ℝ) (ha1 : -Real.pi < a) (ha2 : a ≤ Real.pi)
    (h1 : -(Real.pi / 2) < el) (h2 : el < Real.pi / 2) :
    Equirectangular.d (Spec.spherical a el) = a := by
  have hc : 0 < Real.cos el := Real.cos_pos_of_mem_Ioo ⟨h1, h2⟩
  simp only [Equirectangular.d, Spec.spherical]
  rw [atan2_scale _ _ _ hc]
  exact atan2_sin_cos a ha1 ha2

/-! ## Values of the projector at particular pixels -/

section Pixels

variable {K : Type} [LinearOrderedField K]

theorem Out.vector_eq_branches (W H x y : ℕ) :
    Out.vector K W H x y =
      if Out.h K W H x y < 0 then Out.lower (Out.xx K W x) (Out.yy K H y)
      else Out.upper (Out.xx K W x) (Out.yy K H y) := by
  rfl

/-- The code and the specification use the same lower-hemisphere formula. -/
theorem Out.lower_eq_spec (u v : K) : Out.lower u v = Spec.lower u v := by
  unfold Out.lower Spec.lower Spec.sign Spec.fold Out.Fold
  by_cases hu : u < 0 <;> by_cases hv : v < 0 <;>
    simp [hu, hv, not_le.mpr, not_lt.mp]

theorem Out.upper_eq_spec (u v : K) : Out.upper u v = Spec.upper u v := rfl

/-- On the boundary `|u| + |v| = 1` the lower formula gives the upper vector. -/
theorem Out.lower_eq_upper (u v : K) (h : |u| + |v| = 1) :
    Out.lower u v = Out.upper u v := by
  unfold Out.lower Out.upper Out.Fold
  rw [Vector3.ext_iff3]
  simp only []
  refine ⟨?_, ?_, trivial⟩
  · have e : 1 - |v| = |u| := by linarith
    rw [e]
    by_cases hu : u < 0 <;> by_cases hv : v < 0
    · simp only [hu, hv, if_true, abs_of_neg hu]; ring
    · simp only [hu, hv, if_true, if_false, abs_of_neg hu]; ring
    · simp only [hu, hv, if_true, if_false, abs_of_nonneg (not_lt.mp hu)]; ring
    · simp only [hu, hv, if_false, abs_of_nonneg (not_lt.mp hu)]; ring
  · have e : 1 - |u| = |v| := by linarith
    rw [e]
    by_cases hu : u < 0 <;> by_cases hv : v < 0
    · simp only [hu, hv, if_true, abs_of_neg hv]; ring
    · simp only [hu, hv, if_true, if_false, abs_of_nonneg (not_lt.mp hv)]; ring
    · simp only [hu, hv, if_true, if_false, abs_of_neg hv]; ring
    · simp only [hu, hv, if_false, abs_of_nonneg (not_lt.mp hv)]; ring

/-- The pixel in the middle of an even side has normalized coordinate 0. -/
theorem Out.xx_half (S : ℕ) (hS : 2 ≤ S) (he : S % 2 = 0) : Out.xx K S (S / 2) = 0 := by
  obtain ⟨k, rfl⟩ : ∃ k, S = 2 * k := ⟨S / 2, by omega⟩
  have hk : (k : K) ≠ 0 := by
    have : 0 < k := by omega
    exact_mod_cast this.ne.symm
  have e : 2 * k / 2 = k := by omega
  unfold Out.xx
  rw [e]
  push_cast
  field_simp

/-- The vector built for the middle pixel of an even side is `(0, 0, 1)`. -/
theorem Out.vector_center (S : ℕ) (hS : 2 ≤ S) (he : S % 2 = 0) :
    Out.vector K S S (S / 2) (S / 2) = ⟨0, 0, 1⟩ := by
  have e := Out.xx_half (K := K) S hS he
  have ey : Out.yy K S (S / 2) = 0 := e
  have hh : Out.h K S S (S / 2) (S / 2) = 1 := by
    simp [Out.h, Out.ax, Out.ay, e, ey]
  rw [Out.vector_upper _ _ _ _ (by rw [hh]; norm_num), e, ey, hh, neg_zero]

/-- The first pixel of a row or column has normalized coordinate -1. -/
theorem Out.xx_zero (S : ℕ) : Out.xx K S 0 = -1 := by
  simp [Out.xx]

/-- The vector built for pixel `(0, 0)` is `(0, 0, -1)`. -/
theorem Out.vector_origin (W H : ℕ) : Out.vector K W H 0 0 = ⟨0, 0, -1⟩ := by
  have e := Out.xx_zero (K := K) W
  have ey : Out.yy K H 0 = -1 := Out.xx_zero (K := K) H
  have hh : Out.h K W H 0 0 = -1 := by
    simp only [Out.h, Out.ax, Out.ay, e, ey, abs_neg, abs_one]; norm_num
  rw [Out.vector_lower _ _ _ _ (by rw [hh]; norm_num), hh]
  simp [Out.ax, Out.ay, e, ey]

/-- The last pixel of a row or column of a side `S ≥ 2` has a normalized coordinate in
`[0, 1)`: it is `1 - 2 / S`. -/
theorem Out.xx_last (S : ℕ) (hS : 2 ≤ S) :
    Out.xx K S (S - 1) = 1 - 2 / (S : K) ∧ 0 ≤ Out.xx K S (S - 1) ∧
      Out.xx K S (S - 1) < 1 := by
  have hS0 : (0 : K) < (S : K) := by
    have : 0 < S := by omega
    exact_mod_cast this
  have h2 : (2 : K) ≤ (S : K) := by exact_mod_cast hS
  have e : Out.xx K S (S - 1) = 1 - 2 / (S : K) := by
    unfold Out.xx
    rw [Nat.cast_sub (by omega : 1 ≤ S), Nat.cast_one]
    field_simp
    ring
  refine ⟨e, ?_, ?_⟩
  · rw [e, sub_nonneg, div_le_one hS0]; exact h2
  · rw [e]
    have : (0 : K) < 2 / (S : K) := by positivity
    linarith

end Pixels

theorem Vector3.Length_up : (⟨0, 0, 1⟩ : Vector3 ℝ).Length = 1 := by
  simp [Vector3.Length]

theorem Vector3.Length_down : (⟨0, 0, -1⟩ : Vector3 ℝ).Length = 1 := by
  simp [Vector3.Length]

/-- The direction for the middle pixel of an even side is `(0, 0, 1)`. -/
theorem Out.direction_center_even (S : ℕ) (hS : 2 ≤ S) (he : S % 2 = 0) :
    Out.direction S S (S / 2) (S / 2) = ⟨0, 0, 1⟩ := by
  rw [Out.direction, Out.vector_center S hS he,
    Vector3.Normalize_of_Length_one _ Vector3.Length_up]

/-- The direction for the middle pixel of an odd side is not `(0, 0, 1)`. -/
theorem Out.direction_center_odd (S : ℕ) (ho : S % 2 = 1) :
    Out.direction S S (S / 2) (S / 2) ≠ ⟨0, 0, 1⟩ := by
  have hlt : S / 2 < S := by omega
  have hpos := Out.vector_sq_pos (K := ℝ) S S (S / 2) (S / 2) hlt hlt
  have hl : 0 < (Out.vector ℝ S S (S / 2) (S / 2)).Length := Real.sqrt_pos.mpr hpos
  have hxx : Out.xx ℝ S (S / 2) < 0 := by
    have hS0 : (0 : ℝ) < (S : ℝ) := by
      have : 0 < S := by omega
      exact_mod_cast this
    have h2 : 2 * ((S / 2 : ℕ) : ℝ) < (S : ℝ) := by
      have : 2 * (S / 2) < S := by omega
      exact_mod_cast this
    unfold Out.xx
    have : 2 * ((S / 2 : ℕ) : ℝ) / (S : ℝ) < 1 := by
      rw [div_lt_one hS0]; exact h2
    linarith
  intro hd
  rw [Vector3.ext_iff3] at hd
  by_cases hh : Out.h ℝ S S (S / 2) (S / 2) < 0
  · have hz := hd.2.2
    simp only [Out.direction, Vector3.Normalize, Out.vector_lower _ _ _ _ hh] at hz
    have : Out.h ℝ S S (S / 2) (S / 2)
        / (Out.vector ℝ S S (S / 2) (S / 2)).Length < 0 := div_neg_of_neg_of_pos hh hl
    rw [Out.vector_lower _ _ _ _ hh] at this
    linarith
  · have hx := hd.1
    simp only [Out.direction, Vector3.Normalize, Out.vector_upper _ _ _ _ hh] at hx
    have : 0 < -Out.xx ℝ S (S / 2)
        / (Out.vector ℝ S S (S / 2) (S / 2)).Length := div_pos (by linarith) hl
    rw [Out.vector_upper _ _ _ _ hh] at this
    linarith

/-- The direction for pixel `(0, 0)` is `(0, 0, -1)`. -/
theorem Out.direction_origin (W H : ℕ) : Out.direction W H 0 0 = ⟨0, 0, -1⟩ := by
  rw [Out.direction, Out.vector_origin,
    Vector3.Normalize_of_Length_one _ Vector3.Length_down]

/-! ## The projector fills the image -/

/-- C1: constructing the projector over a `W × H` image with sampler `s` leaves, at every
pixel `x < W`, `y < H`, the colour `s (normalize (dir x y))`, where `dir` is the direction of
the specification (upper formula `(-u, v, h)` when `h ≥ 0`, folded formula when `h < 0`).
The right-hand side does not mention the previous content of the image: every pixel is
written, and its value depends only on its coordinates, the image size and the sampler, so
two images of the same size are filled alike. The size of the image is unchanged. -/
theorem Out.construct_pixel {C : Type} (i : Image C) (s : Vector3 ℝ → C) (x y : ℕ)
    (hx : x < i.Width) (hy : y < i.Height) :
    (Out.construct i s).pixel y x
        = s (Vector3.Normalize (Spec.dir ℝ i.Width i.Height x y)) ∧
      (∀ j : Image C, j.Width = i.Width → j.Height = i.Height →
        (Out.construct j s).pixel y x = (Out.construct i s).pixel y x) ∧
      (Out.construct i s).Width = i.Width ∧ (Out.construct i s).Height = i.Height := by
  have key : ∀ j : Image C, j.Width = i.Width → j.Height = i.Height →
      (Out.construct j s).pixel y x
        = s (Vector3.Normalize (Spec.dir ℝ i.Width i.Height x y)) := by
    intro j hw hh
    have h := (Out.construct_spec j s).2.2 y x
    rw [hw, hh, if_pos ⟨hy, hx⟩] at h
    rw [h, Out.direction, Out.vector_eq_spec]
  refine ⟨key i rfl rfl, ?_, (Out.construct_spec i s).1, (Out.construct_spec i s).2.1⟩
  intro j hw hh
  rw [key j hw hh, key i rfl rfl]

/-- A 2 × 2 image filled by a sampler that returns the height of the direction. -/
theorem Out.construct_pixel_witness :
    (Out.construct (⟨2, 2, fun _ _ => 0⟩ : Image ℝ) (fun v => v.z)).pixel 1 1
      = (Vector3.Normalize (Spec.dir ℝ 2 2 1 1)).z :=
  (Out.construct_pixel (⟨2, 2, fun _ _ => 0⟩ : Image ℝ) (fun v => v.z) 1 1
    (by decide) (by decide)).1

/-- C2: for every pixel `(x, y)` of a square image of side `S` (so `S ≥ 1`), the vector that
`Out::GetColor` builds before normalization is not the zero vector, its length is positive,
and the direction handed to the sampler, whatever the sampler is, has Euclidean length
exactly 1. -/
theorem Out.direction_unit (S x y : ℕ) (hx : x < S) (hy : y < S) :
    Out.vector ℝ S S x y ≠ ⟨0, 0, 0⟩ ∧ 0 < (Out.vector ℝ S S x y).Length ∧
      (Out.direction S S x y).Length = 1 ∧
      ∀ (C : Type) (image : Image C) (inp : Vector3 ℝ → C),
        image.Width = S → image.Height = S →
        Out.GetColor image inp x y = inp (Out.direction S S x y) := by
  have hpos := Out.vector_sq_pos (K := ℝ) S S x y hx hy
  refine ⟨?_, Real.sqrt_pos.mpr hpos, Vector3.Length_Normalize _ hpos, ?_⟩
  · intro h0
    rw [h0] at hpos
    simp at hpos
  · intro C image inp hw hh
    rw [Out.GetColor_eq, hw, hh]

/-- The pixel (3, 0) of a 4 × 4 image: its direction has length 1. -/
theorem Out.direction_unit_witness : (Out.direction 4 4 3 0).Length = 1 :=
  (Out.direction_unit 4 3 0 (by decide) (by decide)).2.2.1

/-! ## The driver -/

/-- C3: for a source of width `w` and height `h` the side computed by `App::Main` is
`max w h`: it is at least `w` and at least `h`, it is one of them, it is the same for the
source with width and height swapped, and the image that `App::Main` produces has that
width and that height. An 8 × 4 source gives an 8 × 8 destination. -/
theorem App.length_eq_max {C : Type} (Get : Image C → ℝ → ℝ → C) (w h : ℕ)
    (src swapped init : ℕ → ℕ → C) :
    App.length (⟨w, h, src⟩ : Image C) = max w h ∧
      w ≤ App.length (⟨w, h, src⟩ : Image C) ∧ h ≤ App.length (⟨w, h, src⟩ : Image C) ∧
      (App.length (⟨w, h, src⟩ : Image C) = w ∨ App.length (⟨w, h, src⟩ : Image C) = h) ∧
      App.length (⟨h, w, swapped⟩ : Image C) = App.length (⟨w, h, src⟩ : Image C) ∧
      (Canvas (App.length (⟨w, h, src⟩ : Image C)) (App.length (⟨w, h, src⟩ : Image C))
        init).Width = max w h ∧
      (Canvas (App.length (⟨w, h, src⟩ : Image C)) (App.length (⟨w, h, src⟩ : Image C))
        init).Height = max w h ∧
      (App.Main Get ⟨w, h, src⟩ init).Width = max w h ∧
      (App.Main Get ⟨w, h, src⟩ init).Height = max w h ∧
      (App.Main Get ⟨8, 4, src⟩ init).Width = 8 ∧
      (App.Main Get ⟨8, 4, src⟩ init).Height = 8 := by
  have e : ∀ (a b : ℕ) (p : ℕ → ℕ → C), App.length (⟨a, b, p⟩ : Image C) = max a b := by
    intro a b p
    unfold App.length
    simp only []
    split_ifs with hlt
    · exact (max_eq_right hlt.le).symm
    · exact (max_eq_left (not_lt.mp hlt)).symm
  have m : ∀ (a b : ℕ) (p : ℕ → ℕ → C),
      (App.Main Get ⟨a, b, p⟩ init).Width = max a b ∧
        (App.Main Get ⟨a, b, p⟩ init).Height = max a b := by
    intro a b p
    unfold App.Main
    simp only []
    rw [(Out.construct_spec _ _).1, (Out.construct_spec _ _).2.1, e]
    exact ⟨rfl, rfl⟩
  rw [e, e]
  refine ⟨rfl, le_max_left w h, le_max_right w h, ?_, max_comm h w, rfl, rfl,
    (m w h src).1, (m w h src).2, ?_, ?_⟩
  · rcases le_total w h with hle | hle
    · right; exact max_eq_right hle
    · left; exact max_eq_left hle
  · rw [(m 8 4 src).1]; rfl
  · rw [(m 8 4 src).2]; rfl

/-! ## The equirectangular sampler and the projector at particular pixels -/

/-- C4: equirectangular round trip. For every azimuth `a` in `(-π, π]` and elevation `el`
in `(-π/2, π/2)`, on the direction `(cos el * cos a, cos el * sin a, sin el)` the sampler
recovers `e = el` and `d = a`, and looks the image up at `px = (a/π + 1) * W/2` and
`py = (-el/π + 0.5) * (H - 1)`, where `H - 1` is the value of the code's
`image.Height() - 1`; for a source with at least one row that value is the integer
`H - 1`. -/
theorem Equirectangular.roundtrip {C : Type} (Get : Image C → ℝ → ℝ → C) (image : Image C)
    (a el : ℝ) (ha1 : -Real.pi < a) (ha2 : a ≤ Real.pi) (h1 : -(Real.pi / 2) < el)
    (h2 : el < Real.pi / 2) :
    Equirectangular.e (Spec.spherical a el) = el ∧
      Equirectangular.d (Spec.spherical a el) = a ∧
      Equirectangular.px image.Width (Spec.spherical a el)
        = (a / Real.pi + 1) * (image.Width : ℝ) / 2 ∧
      Equirectangular.py image.Height (Spec.spherical a el)
        = (-el / Real.pi + 0.5) * ((unsignedSub image.Height 1 : ℕ) : ℝ) ∧
      (1 ≤ image.Height → image.Height < 2 ^ 32 →
        Equirectangular.py image.Height (Spec.spherical a el)
          = (-el / Real.pi + 0.5) * ((image.Height : ℝ) - 1)) ∧
      Equirectangular.GetColor Get image (Spec.spherical a el)
        = Get image ((a / Real.pi + 1) * (image.Width : ℝ) / 2)
            ((-el / Real.pi + 0.5) * ((unsignedSub image.Height 1 : ℕ) : ℝ)) := by
  have he := Equirectangular.e_spherical a el h1 h2
  have hd := Equirectangular.d_spherical a el ha1 ha2 h1 h2
  have hpx : Equirectangular.px image.Width (Spec.spherical a el)
      = (a / Real.pi + 1) * (image.Width : ℝ) / 2 := by
    rw [Equirectangular.px, hd]
  have hpy : Equirectangular.py image.Height (Spec.spherical a el)
      = (-el / Real.pi + 0.5) * ((unsignedSub image.Height 1 : ℕ) : ℝ) := by
    rw [Equirectangular.py, he]
  refine ⟨he, hd, hpx, hpy, ?_, ?_⟩
  · intro hH1 hH2
    rw [hpy, unsignedSub_one _ hH1 hH2]
  · rw [Equirectangular.GetColor, hpx, hpy]

/-- Azimuth `π/2` and elevation 0 on a 4 × 2 source: the lookup is at `px = 3`,
`py = 0.5`. -/
theorem Equirectangular.roundtrip_witness :
    Equirectangular.py 2 (Spec.spherical (Real.pi / 2) 0)
      = (-0 / Real.pi + 0.5) * (((2 : ℕ) : ℝ) - 1) :=
  (Equirectangular.roundtrip (fun _ _ _ => (0 : ℕ)) ⟨4, 2, fun _ _ => 0⟩ (Real.pi / 2) 0
    (by linarith [Real.pi_pos]) (by linarith [Real.pi_pos]) (by linarith [Real.pi_pos])
    (by linarith [Real.pi_pos])).2.2.2.2.1 (by decide) (by decide)

/-- C5 as amended: for a side `S ≥ 1`, the direction that the projector computes for the
pixel `(S / 2, S / 2)` is `(0, 0, 1)` exactly when `S` is even. -/
theorem Out.direction_center_iff (S : ℕ) (hS : 1 ≤ S) :
    Out.direction S S (S / 2) (S / 2) = ⟨0, 0, 1⟩ ↔ S % 2 = 0 := by
  constructor
  · intro h
    by_contra hne
    exact Out.direction_center_odd S (by omega) h
  · intro he
    exact Out.direction_center_even S (by omega) he

/-- The middle pixel (2, 2) of a 4 × 4 image looks straight up. -/
theorem Out.direction_center_iff_witness : Out.direction 4 4 (4 / 2) (4 / 2) = ⟨0, 0, 1⟩ :=
  (Out.direction_center_iff 4 (by decide)).mpr (by decide)

/-- C5 fails for an odd side: the middle pixel (1, 1) of a 3 × 3 image does not get the
direction `(0, 0, 1)` (its vector before normalization is `(1/3, -1/3, 1/3)`). -/
theorem Out.direction_center_three :
    (1 ≤ 3 ∧ Out.vector ℚ 3 3 (3 / 2) (3 / 2) = ⟨1 / 3, -(1 / 3), 1 / 3⟩) ∧
      Out.direction 3 3 (3 / 2) (3 / 2) ≠ ⟨0, 0, 1⟩ := by
  refine ⟨⟨by decide, ?_⟩, Out.direction_center_odd 3 (by decide)⟩
  have e : Out.xx ℚ 3 (3 / 2) = -(1 / 3) := by norm_num [Out.xx]
  have ey : Out.yy ℚ 3 (3 / 2) = -(1 / 3) := e
  have hh : Out.h ℚ 3 3 (3 / 2) (3 / 2) = 1 / 3 := by
    simp only [Out.h, Out.ax, Out.ay, e, ey, abs_neg]
    rw [abs_of_pos (by norm_num : (0 : ℚ) < 1 / 3)]
    norm_num
  rw [Out.vector_upper _ _ _ _ (by rw [hh]; norm_num), e, ey, hh, neg_neg]

/-- C6 as amended: for every side `S ≥ 1` the corner pixel `(0, 0)` has `au = av = 1` and
`h = -1`, and its direction is the axis-aligned unit vector `(0, 0, -1)`. At the other
three corner pixels `(S - 1, 0)`, `(0, S - 1)` and `(S - 1, S - 1)` this holds exactly when
`S = 1` (where they are the pixel `(0, 0)`): the normalized coordinate of index `S - 1` is
`1 - 2/S`, of absolute value 1 only for `S = 1`, and `h = -1` there only for `S = 1`. -/
theorem Out.corner_origin (S : ℕ) (hS : 1 ≤ S) :
    (Out.ax ℝ S 0 = 1 ∧ Out.ay ℝ S 0 = 1 ∧ Out.h ℝ S S 0 0 = -1 ∧
        Out.direction S S 0 0 = ⟨0, 0, -1⟩ ∧ Spec.axisAligned (Out.direction S S 0 0)) ∧
      (Out.ax ℝ S (S - 1) = 1 ↔ S = 1) ∧ (Out.ay ℝ S (S - 1) = 1 ↔ S = 1) ∧
      (Out.h ℝ S S (S - 1) 0 = -1 ↔ S = 1) ∧ (Out.h ℝ S S 0 (S - 1) = -1 ↔ S = 1) ∧
      (Out.h ℝ S S (S - 1) (S - 1) = -1 ↔ S = 1) := by
  have e0 : Out.ax ℝ S 0 = 1 := by simp [Out.ax, Out.xx_zero]
  have e0y : Out.ay ℝ S 0 = 1 := e0
  have h0 : Out.h ℝ S S 0 0 = -1 := by rw [Out.h, e0, e0y]; norm_num
  have hall : 2 ≤ S → Out.ax ℝ S (S - 1) < 1 := by
    intro h2
    have hl := Out.xx_last (K := ℝ) S h2
    rw [Out.ax, abs_of_nonneg hl.2.1]; exact hl.2.2
  have hally : 2 ≤ S → Out.ay ℝ S (S - 1) < 1 := hall
  have n1 : 0 ≤ Out.ax ℝ S (S - 1) := abs_nonneg _
  have n1y : 0 ≤ Out.ay ℝ S (S - 1) := abs_nonneg _
  have one : S = 1 → S - 1 = 0 := by intro h; omega
  refine ⟨⟨e0, e0y, h0, Out.direction_origin S S, ?_⟩, ?_, ?_, ?_, ?_, ?_⟩
  · rw [Out.direction_origin]
    right; right; right; right; rfl
  · constructor
    · intro h; by_contra hne
      have := hall (by omega); linarith
    · intro h; rw [one h]; exact e0
  · constructor
    · intro h; by_contra hne
      have := hally (by omega); linarith
    · intro h; rw [one h]; exact e0y
  · constructor
    · intro h; by_contra hne
      have := hall (by omega)
      rw [Out.h, e0y] at h; linarith
    · intro h; rw [one h]; exact h0
  · constructor
    · intro h; by_contra hne
      have := hally (by omega)
      rw [Out.h, e0] at h; linarith
    · intro h; rw [one h]; exact h0
  · constructor
    · intro h; by_contra hne
      have := hall (by omega)
      have := hally (by omega)
      rw [Out.h] at h; linarith
    · intro h; rw [one h]; exact h0

/-- The corner pixel (0, 0) of a 4 × 4 image looks straight down. -/
theorem Out.corner_origin_witness : Out.direction 4 4 0 0 = ⟨0, 0, -1⟩ :=
  (Out.corner_origin 4 (by decide)).1.2.2.2.1

/-- C6 fails at the corner pixel `(S - 1, 0)` for `S = 4`: there `au = 1/2`, `h = -1/2`,
and the direction is none of the axis-aligned unit vectors (its vector before
normalization is `(0, -1/2, -1/2)`). -/
theorem Out.corner_four :
    1 ≤ 4 ∧ Out.ax ℝ 4 (4 - 1) ≠ 1 ∧ Out.h ℝ 4 4 (4 - 1) 0 ≠ -1 ∧
      ¬ Spec.axisAligned (Out.direction 4 4 (4 - 1) 0) := by
  have e : Out.xx ℝ 4 (4 - 1) = 1 / 2 := by norm_num [Out.xx]
  have ey : Out.yy ℝ 4 0 = -1 := Out.xx_zero 4
  have ea : Out.ax ℝ 4 (4 - 1) = 1 / 2 := by
    rw [Out.ax, e, abs_of_pos (by norm_num : (0 : ℝ) < 1 / 2)]
  have eay : Out.ay ℝ 4 0 = 1 := by simp [Out.ay, ey]
  have hh : Out.h ℝ 4 4 (4 - 1) 0 = -(1 / 2) := by
    rw [Out.h, ea, eay]; norm_num
  have hv : Out.vector ℝ 4 4 (4 - 1) 0 = ⟨0, -(1 / 2), -(1 / 2)⟩ := by
    rw [Out.vector_lower _ _ _ _ (by rw [hh]; norm_num), hh, ea, eay]
    have s1 : Out.sy ℝ 4 0 = -1 := by
      simp [Out.sy, ey]
    rw [s1]
    norm_num
  have hl : 0 < (Out.vector ℝ 4 4 (4 - 1) 0).Length :=
    Real.sqrt_pos.mpr (Out.vector_sq_pos 4 4 (4 - 1) 0 (by decide) (by decide))
  have hy : (Out.direction 4 4 (4 - 1) 0).y < 0 := by
    simp only [Out.direction, Vector3.Normalize]
    apply div_neg_of_neg_of_pos _ hl
    rw [hv]; norm_num
  have hz : (Out.direction 4 4 (4 - 1) 0).z < 0 := by
    simp only [Out.direction, Vector3.Normalize]
    apply div_neg_of_neg_of_pos _ hl
    rw [hv]; norm_num
  refine ⟨by decide, by rw [ea]; norm_num, by rw [hh]; norm_num, ?_⟩
  intro hax
  rcases hax with h | h | h | h | h <;> rw [h] at hy hz <;> simp at hy hz

/-- C7: continuity at the hemisphere boundary. For all `u`, `v` with `|u| + |v| = 1` (which
puts both in `[-1, 1]` and makes `h = 0`), the lower-hemisphere formula, with the sign of 0
taken as `+1`, gives exactly the vector `(-u, v, h)` of the upper-hemisphere formula; this
holds for the formulas of the specification and for the two branches of `Out::GetColor`,
which are the same formulas, so at a pixel with `h = 0` either branch yields the vector
the code builds. -/
theorem Out.branches_agree (u v : ℝ) (h : |u| + |v| = 1) :
    Spec.lower u v = Spec.upper u v ∧ Out.lower u v = Out.upper u v ∧
      Spec.upper u v = ⟨-u, v, 0⟩ ∧
      ∀ W H x y : ℕ, Out.xx ℝ W x = u → Out.yy ℝ H y = v →
        Out.vector ℝ W H x y = Out.lower u v ∧ Out.vector ℝ W H x y = Out.upper u v := by
  have e := Out.lower_eq_upper u v h
  refine ⟨?_, e, ?_, ?_⟩
  · rw [← Out.lower_eq_spec, ← Out.upper_eq_spec, e]
  · rw [Spec.upper, (by linarith : 1 - |u| - |v| = 0)]
  · intro W H x y hx hy
    have hv : Out.vector ℝ W H x y = Out.upper u v := by
      have hh : ¬ Out.h ℝ W H x y < 0 := by
        rw [Out.h, Out.ax, Out.ay, hx, hy]; linarith
      rw [Out.vector_eq_branches, if_neg hh, hx, hy]
    exact ⟨by rw [hv, e], hv⟩

/-- The boundary point `u = -1/2`, `v = 1/2`. -/
theorem Out.branches_agree_witness :
    Spec.lower (-(1 / 2) : ℝ) (1 / 2) = Spec.upper (-(1 / 2)) (1 / 2) :=
  (Out.branches_agree (-(1 / 2)) (1 / 2) (by
    rw [abs_neg, abs_of_pos (by norm_num : (0 : ℝ) < 1 / 2)]; norm_num)).1

theorem Equirectangular.py_top (H : ℕ) : Equirectangular.py H ⟨0, 0, 1⟩ = 0 := by
  have hpi := Real.pi_pos
  rw [Equirectangular.py, Equirectangular.e_top]
  have e : -(Real.pi / 2) / Real.pi + 0.5 = 0 := by
    field_simp
    ring
  rw [e, zero_mul]

theorem Equirectangular.py_bottom (H : ℕ) :
    Equirectangular.py H ⟨0, 0, -1⟩ = ((unsignedSub H 1 : ℕ) : ℝ) := by
  have hpi := Real.pi_pos
  rw [Equirectangular.py, Equirectangular.e_bottom]
  have e : - -(Real.pi / 2) / Real.pi + 0.5 = 1 := by
    field_simp
    ring
  rw [e, one_mul]

/-- C10: for every source of height `H ≥ 1` (an `unsigned`, so below `2 ^ 32`), the sampler
maps the direction `(0, 0, 1)`, of elevation `π/2`, to the vertical coordinate `py = 0`
(top row) and the direction `(0, 0, -1)`, of elevation `-π/2`, to `py = H - 1` (bottom
row). -/
theorem Equirectangular.poles (H : ℕ) (h1 : 1 ≤ H) (h2 : H < 2 ^ 32) :
    Equirectangular.e ⟨0, 0, 1⟩ = Real.pi / 2 ∧ Equirectangular.py H ⟨0, 0, 1⟩ = 0 ∧
      Equirectangular.e ⟨0, 0, -1⟩ = -(Real.pi / 2) ∧
      Equirectangular.py H ⟨0, 0, -1⟩ = (H : ℝ) - 1 := by
  refine ⟨Equirectangular.e_top, Equirectangular.py_top H, Equirectangular.e_bottom, ?_⟩
  rw [Equirectangular.py_bottom, unsignedSub_one H h1 h2]

/-- A source with two rows: straight down is looked up in row 1. -/
theorem Equirectangular.poles_witness :
    Equirectangular.py 2 ⟨0, 0, -1⟩ = ((2 : ℕ) : ℝ) - 1 :=
  (Equirectangular.poles 2 (by decide) (by decide)).2.2.2

/-! ## Ranges of the coordinates -/

/-- C11 as amended: for every side `S ≥ 1` and every pixel index `x < S`, `y < S`, the
normalized coordinates `u = 2x/S - 1` and `v = 2y/S - 1` lie in the half-open interval
`[-1, 1)`; the value `-1` is taken exactly at index 0, so `u` (resp. `v`) lies in the open
interval `(-1, 1)` exactly when `x ≥ 1` (resp. `y ≥ 1`). -/
theorem Out.coordinates_mem (S x y : ℕ) (hx : x < S) (hy : y < S) :
    (-1 ≤ Out.xx ℝ S x ∧ Out.xx ℝ S x < 1) ∧ (-1 ≤ Out.yy ℝ S y ∧ Out.yy ℝ S y < 1) ∧
      (Out.xx ℝ S x = -1 ↔ x = 0) ∧ (Out.yy ℝ S y = -1 ↔ y = 0) ∧
      (-1 < Out.xx ℝ S x ↔ 1 ≤ x) ∧ (-1 < Out.yy ℝ S y ↔ 1 ≤ y) := by
  have key : ∀ n : ℕ, n < S → (Out.xx ℝ S n = -1 ↔ n = 0) := by
    intro n hn
    have hS : (0 : ℝ) < (S : ℝ) := by
      exact_mod_cast Nat.lt_of_le_of_lt (Nat.zero_le n) hn
    constructor
    · intro h
      unfold Out.xx at h
      have h0 : 2 * (n : ℝ) / (S : ℝ) = 0 := by linarith
      rcases div_eq_zero_iff.mp h0 with h1 | h1
      · have : (n : ℝ) = 0 := by linarith
        exact_mod_cast this
      · exact absurd h1 hS.ne.symm
    · intro h
      rw [h]; exact Out.xx_zero S
  have open_iff : ∀ n : ℕ, n < S → (-1 < Out.xx ℝ S n ↔ 1 ≤ n) := by
    intro n hn
    have hm := Out.xx_mem (K := ℝ) S n hn
    have hk := key n hn
    constructor
    · intro h
      by_contra hne
      have : Out.xx ℝ S n = -1 := hk.mpr (by omega)
      linarith
    · intro h
      have hne : Out.xx ℝ S n ≠ -1 := fun he => by
        have := hk.mp he
        omega
      exact lt_of_le_of_ne hm.1 (Ne.symm hne)
  exact ⟨Out.xx_mem S x hx, Out.xx_mem S y hy, key x hx, key y hy, open_iff x hx,
    open_iff y hy⟩

/-- The pixel (1, 0) of a 4 × 4 image: `u = -1/2` is inside the open interval, `v = -1`
is its left end. -/
theorem Out.coordinates_mem_witness :
    (-1 < Out.xx ℝ 4 1 ∧ Out.xx ℝ 4 1 < 1) ∧ Out.yy ℝ 4 0 = -1 :=
  ⟨⟨(Out.coordinates_mem 4 1 0 (by decide) (by decide)).2.2.2.2.1.mpr (by decide),
      (Out.coordinates_mem 4 1 0 (by decide) (by decide)).1.2⟩,
    (Out.coordinates_mem 4 1 0 (by decide) (by decide)).2.2.2.1.mpr rfl⟩

/-- C11 fails at index 0: for the pixel (0, 0) of a 4 × 4 image `u = v = -1`, which is not
inside the open interval `(-1, 1)`. -/
theorem Out.coordinates_origin :
    (1 ≤ 4 ∧ 0 < 4) ∧ Out.xx ℝ 4 0 = -1 ∧ Out.yy ℝ 4 0 = -1 ∧
      ¬ (-1 < Out.xx ℝ 4 0 ∧ Out.xx ℝ 4 0 < 1) ∧
      ¬ (-1 < Out.yy ℝ 4 0 ∧ Out.yy ℝ 4 0 < 1) := by
  have e : Out.xx ℝ 4 0 = -1 := Out.xx_zero 4
  have ey : Out.yy ℝ 4 0 = -1 := Out.xx_zero 4
  refine ⟨⟨by decide, by decide⟩, e, ey, ?_, ?_⟩
  · rw [e]; intro h; exact lt_irrefl _ h.1
  · rw [ey]; intro h; exact lt_irrefl _ h.1

/-- The elevation computed by the sampler lies in `[-π/2, π/2]`. -/
theorem Equirectangular.e_mem (v : Vector3 ℝ) :
    -(Real.pi / 2) ≤ Equirectangular.e v ∧ Equirectangular.e v ≤ Real.pi / 2 := by
  have h : |Equirectangular.e v| ≤ Real.pi / 2 := by
    unfold Equirectangular.e atan2
    rw [Complex.abs_arg_le_pi_div_two_iff]
    exact Real.sqrt_nonneg _
  exact abs_le.mp h

/-- C12: for every direction vector `(x, y, z)`, unit or not, the elevation
`e = atan2 (z, sqrt (x² + y²))` computed by `Equirectangular::GetColor` lies in
`[-π/2, π/2]`, and for every source of height `H ≥ 1` (an `unsigned`, so below `2 ^ 32`)
the vertical lookup coordinate `py = (-e/π + 0.5) * (H - 1)` satisfies
`0 ≤ py ≤ H - 1`. -/
theorem Equirectangular.py_mem (H : ℕ) (v : Vector3 ℝ) (h1 : 1 ≤ H) (h2 : H < 2 ^ 32) :
    (-(Real.pi / 2) ≤ Equirectangular.e v ∧ Equirectangular.e v ≤ Real.pi / 2) ∧
      Equirectangular.py H v = (-Equirectangular.e v / Real.pi + 0.5) * ((H : ℝ) - 1) ∧
      0 ≤ Equirectangular.py H v ∧ Equirectangular.py H v ≤ (H : ℝ) - 1 := by
  have he := Equirectangular.e_mem v
  have hpi := Real.pi_pos
  have hH : (0 : ℝ) ≤ (H : ℝ) - 1 := by
    have : (1 : ℝ) ≤ (H : ℝ) := by exact_mod_cast h1
    linarith
  have f1 : -(1 / 2) ≤ -Equirectangular.e v / Real.pi := by
    rw [le_div_iff₀ hpi]; linarith [he.2]
  have f2 : -Equirectangular.e v / Real.pi ≤ 1 / 2 := by
    rw [div_le_iff₀ hpi]; linarith [he.1]
  have hpy : Equirectangular.py H v
      = (-Equirectangular.e v / Real.pi + 0.5) * ((H : ℝ) - 1) := by
    rw [Equirectangular.py, unsignedSub_one H h1 h2]
  have g1 : (0 : ℝ) ≤ -Equirectangular.e v / Real.pi + 0.5 := by norm_num; linarith
  have g2 : -Equirectangular.e v / Real.pi + 0.5 ≤ (1 : ℝ) := by norm_num; linarith
  refine ⟨he, hpy, ?_, ?_⟩
  · rw [hpy]; exact mul_nonneg g1 hH
  · rw [hpy]
    calc (-Equirectangular.e v / Real.pi + 0.5) * ((H : ℝ) - 1)
        ≤ 1 * ((H : ℝ) - 1) := mul_le_mul_of_nonneg_right g2 hH
      _ = (H : ℝ) - 1 := one_mul _

/-- The vector (3, 4, -12), not a unit vector, on a source with two rows. -/
theorem Equirectangular.py_mem_witness :
    0 ≤ Equirectangular.py 2 ⟨3, 4, -12⟩ ∧
      Equirectangular.py 2 ⟨3, 4, -12⟩ ≤ ((2 : ℕ) : ℝ) - 1 :=
  (Equirectangular.py_mem 2 ⟨3, 4, -12⟩ (by decide) (by decide)).2.2

/-! ## The unit octahedron -/

/-- C13: octahedron invariant. For every pixel `(x, y)` of a square image of side `S` (so
`S ≥ 1`), the vector `(a, b, c)` that `Out::GetColor` builds before normalization, in
either branch, satisfies `|a| + |b| + |c| = 1`; its third component is `h`, and `c ≥ 0`
exactly when `|u| + |v| ≤ 1`; in the lower branch (`h < 0`) it is the standard octahedral
decode `(-su * (1 - av), sv * (1 - au), h)`, in the upper branch it is `(-u, v, h)`. -/
theorem Out.vector_octahedron (S x y : ℕ) (hx : x < S) (hy : y < S) :
    |(Out.vector ℝ S S x y).x| + |(Out.vector ℝ S S x y).y| + |(Out.vector ℝ S S x y).z|
        = 1 ∧
      (Out.vector ℝ S S x y).z = Out.h ℝ S S x y ∧
      (0 ≤ (Out.vector ℝ S S x y).z ↔ |Out.xx ℝ S x| + |Out.yy ℝ S y| ≤ 1) ∧
      (Out.h ℝ S S x y < 0 →
        Out.vector ℝ S S x y =
          ⟨-Out.sx ℝ S x * (1 - Out.ay ℝ S y), Out.sy ℝ S y * (1 - Out.ax ℝ S x),
            Out.h ℝ S S x y⟩) ∧
      (0 ≤ Out.h ℝ S S x y →
        Out.vector ℝ S S x y = ⟨-Out.xx ℝ S x, Out.yy ℝ S y, Out.h ℝ S S x y⟩) := by
  have hz : (Out.vector ℝ S S x y).z = Out.h ℝ S S x y := by
    by_cases hh : Out.h ℝ S S x y < 0
    · rw [Out.vector_lower _ _ _ _ hh]
    · rw [Out.vector_upper _ _ _ _ hh]
  refine ⟨Out.vector_l1 S S x y hx hy, hz, ?_, fun hh => Out.vector_lower _ _ _ _ hh,
    fun hh => Out.vector_upper _ _ _ _ (not_lt.mpr hh)⟩
  rw [hz, Out.h, Out.ax, Out.ay]
  constructor <;> intro h <;> linarith

/-- The pixel (3, 0) of a 4 × 4 image, in the lower branch: its vector `(0, -1/2, -1/2)`
lies on the unit octahedron. -/
theorem Out.vector_octahedron_witness :
    |(Out.vector ℝ 4 4 3 0).x| + |(Out.vector ℝ 4 4 3 0).y| + |(Out.vector ℝ 4 4 3 0).z|
      = 1 :=
  (Out.vector_octahedron 4 3 0 (by decide) (by decide)).1

/-! ## Injectivity off the seam -/

section Injective

variable {K : Type} [LinearOrderedField K]

/-- Different pixel indices have different normalized coordinates. -/
theorem Out.xx_injective (S x1 x2 : ℕ) (hS : 0 < S) (h : Out.xx K S x1 = Out.xx K S x2) :
    x1 = x2 := by
  have hS0 : (S : K) ≠ 0 := by exact_mod_cast hS.ne.symm
  unfold Out.xx at h
  have h1 : 2 * (x1 : K) / (S : K) = 2 * (x2 : K) / (S : K) := by linarith
  rw [div_left_inj' hS0] at h1
  have h2 : (x1 : K) = (x2 : K) := by linarith
  exact_mod_cast h2

/-- Away from index 0 the normalized coordinate has absolute value below 1. -/
theorem Out.ax_lt_one (S x : ℕ) (h1 : 1 ≤ x) (hx : x < S) : Out.ax K S x < 1 := by
  have hm := Out.xx_mem (K := K) S x hx
  have hS : (0 : K) < (S : K) := by
    exact_mod_cast Nat.lt_of_le_of_lt (Nat.zero_le x) hx
  have hx0 : (0 : K) < (x : K) := by exact_mod_cast h1
  have hlo : -1 < Out.xx K S x := by
    unfold Out.xx
    have : (0 : K) < 2 * (x : K) / (S : K) := by positivity
    linarith
  unfold Out.ax
  exact abs_lt.mpr ⟨hlo, hm.2⟩

/-- The third component of the vector is `h` in both branches. -/
theorem Out.vector_z (W H x y : ℕ) : (Out.vector K W H x y).z = Out.h K W H x y := by
  by_cases hh : Out.h K W H x y < 0
  · rw [Out.vector_lower _ _ _ _ hh]
  · rw [Out.vector_upper _ _ _ _ hh]

/-- A sign times a positive number determines both. -/
theorem Out.sign_mul_cancel (s1 s2 a1 a2 : K) (hs1 : |s1| = 1) (hs2 : |s2| = 1)
    (ha1 : 0 < a1) (ha2 : 0 < a2) (h : s1 * a1 = s2 * a2) : s1 = s2 ∧ a1 = a2 := by
  have ha : a1 = a2 := by
    have h3 := congrArg (fun t => |t|) h
    simp only [abs_mul, hs1, hs2, one_mul, abs_of_pos ha1, abs_of_pos ha2] at h3
    exact h3
  refine ⟨?_, ha⟩
  rw [ha] at h
  exact mul_right_cancel₀ ha2.ne.symm h

/-- Off the first row and the first column, the vector built before normalization
determines the pixel. -/
theorem Out.vector_injective (W H x1 y1 x2 y2 : ℕ) (hx1 : 1 ≤ x1) (hx1W : x1 < W)
    (hy1 : 1 ≤ y1) (hy1H : y1 < H) (hx2 : 1 ≤ x2) (hx2W : x2 < W) (hy2 : 1 ≤ y2)
    (hy2H : y2 < H) (hv : Out.vector K W H x1 y1 = Out.vector K W H x2 y2) :
    x1 = x2 ∧ y1 = y2 := by
  have hW : 0 < W := by omega
  have hH : 0 < H := by omega
  have hz : Out.h K W H x1 y1 = Out.h K W H x2 y2 := by
    rw [← Out.vector_z, ← Out.vector_z, hv]
  suffices hc : Out.xx K W x1 = Out.xx K W x2 ∧ Out.yy K H y1 = Out.yy K H y2 from
    ⟨Out.xx_injective W x1 x2 hW hc.1, Out.xx_injective H y1 y2 hH hc.2⟩
  by_cases hh : Out.h K W H x1 y1 < 0
  · have hh2 : Out.h K W H x2 y2 < 0 := by rw [← hz]; exact hh
    rw [Out.vector_lower _ _ _ _ hh, Out.vector_lower _ _ _ _ hh2, Vector3.ext_iff3] at hv
    have a1 := Out.ax_lt_one (K := K) W x1 hx1 hx1W
    have a2 := Out.ax_lt_one (K := K) W x2 hx2 hx2W
    have b1 : Out.ay K H y1 < 1 := Out.ax_lt_one (K := K) H y1 hy1 hy1H
    have b2 : Out.ay K H y2 < 1 := Out.ax_lt_one (K := K) H y2 hy2 hy2H
    have e1 : Out.sx K W x1 * (1 - Out.ay K H y1) = Out.sx K W x2 * (1 - Out.ay K H y2) := by
      have := hv.1
      simp only [neg_mul] at this
      exact neg_injective this
    have c1 := Out.sign_mul_cancel _ _ _ _ (Out.abs_sx W x1) (Out.abs_sx W x2)
      (by linarith) (by linarith) e1
    have c2 := Out.sign_mul_cancel _ _ _ _ (Out.abs_sy H y1) (Out.abs_sy H y2)
      (by linarith : (0 : K) < 1 - Out.ax K W x1) (by linarith) hv.2.1
    have ea : Out.ax K W x1 = Out.ax K W x2 := by linarith [c2.2]
    have eb : Out.ay K H y1 = Out.ay K H y2 := by linarith [c1.2]
    have m1 := Out.sx_mul_ax (K := K) W x1
    have m2 := Out.sx_mul_ax (K := K) W x2
    have n1 : Out.sy K H y1 * Out.ay K H y1 = Out.yy K H y1 := Out.sx_mul_ax (K := K) H y1
    have n2 : Out.sy K H y2 * Out.ay K H y2 = Out.yy K H y2 := Out.sx_mul_ax (K := K) H y2
    constructor
    · rw [← m1, ← m2, c1.1, ea]
    · rw [← n1, ← n2, c2.1, eb]
  · have hh2 : ¬ Out.h K W H x2 y2 < 0 := by rw [← hz]; exact hh
    rw [Out.vector_upper _ _ _ _ hh, Out.vector_upper _ _ _ _ hh2, Vector3.ext_iff3] at hv
    exact ⟨neg_injective hv.1, hv.2.1⟩

end Injective

/-- Two vectors of the unit octahedron with the same normalization are equal. -/
theorem Vector3.eq_of_Normalize_eq (p q : Vector3 ℝ)
    (hp : |p.x| + |p.y| + |p.z| = 1) (hq : |q.x| + |q.y| + |q.z| = 1)
    (hp0 : 0 < p.Length) (hq0 : 0 < q.Length) (h : p.Normalize = q.Normalize) : p = q := by
  rw [Vector3.ext_iff3] at h
  simp only [Vector3.Normalize] at h
  have k0 : 0 < p.Length / q.Length := div_pos hp0 hq0
  have ex : p.x = p.Length / q.Length * q.x := by
    have := h.1
    field_simp at this ⊢
    linarith
  have ey : p.y = p.Length / q.Length * q.y := by
    have := h.2.1
    field_simp at this ⊢
    linarith
  have ez : p.z = p.Length / q.Length * q.z := by
    have := h.2.2
    field_simp at this ⊢
    linarith
  have hk : p.Length / q.Length = 1 := by
    have h1 : |p.x| + |p.y| + |p.z|
        = p.Length / q.Length * (|q.x| + |q.y| + |q.z|) := by
      rw [ex, ey, ez]
      simp only [abs_mul, abs_of_pos k0]
      ring
    rw [hp, hq, mul_one] at h1
    exact h1.symm
  rw [hk, one_mul] at ex ey ez
  rw [Vector3.ext_iff3]
  exact ⟨ex, ey, ez⟩

/-- C14: injectivity off the seam. For every side `S ≥ 1`, two distinct pixels `(x1, y1)` and
`(x2, y2)` with `1 ≤ x1, x2 < S` and `1 ≤ y1, y2 < S` are mapped by the projector to
distinct normalized direction vectors. -/
theorem Out.direction_injective (S x1 y1 x2 y2 : ℕ) (hx1 : 1 ≤ x1) (hx1S : x1 < S)
    (hy1 : 1 ≤ y1) (hy1S : y1 < S) (hx2 : 1 ≤ x2) (hx2S : x2 < S) (hy2 : 1 ≤ y2)
    (hy2S : y2 < S) (hne : (x1, y1) ≠ (x2, y2)) :
    Out.direction S S x1 y1 ≠ Out.direction S S x2 y2 := by
  intro hd
  have hv : Out.vector ℝ S S x1 y1 = Out.vector ℝ S S x2 y2 :=
    Vector3.eq_of_Normalize_eq _ _ (Out.vector_l1 S S x1 y1 hx1S hy1S)
      (Out.vector_l1 S S x2 y2 hx2S hy2S)
      (Real.sqrt_pos.mpr (Out.vector_sq_pos S S x1 y1 hx1S hy1S))
      (Real.sqrt_pos.mpr (Out.vector_sq_pos S S x2 y2 hx2S hy2S)) hd
  have hxy := Out.vector_injective S S x1 y1 x2 y2 hx1 hx1S hy1 hy1S hx2 hx2S hy2 hy2S hv
  exact hne (by rw [hxy.1, hxy.2])

/-- The pixels (1, 1) and (3, 3) of a 4 × 4 image look in different directions. -/
theorem Out.direction_injective_witness : Out.direction 4 4 1 1 ≠ Out.direction 4 4 3 3 :=
  Out.direction_injective 4 1 1 3 3 (by decide) (by decide) (by decide) (by decide)
    (by decide) (by decide) (by decide) (by decide) (by decide)

/-! ## The seam: first row and first column -/

section Seam

variable {K : Type} [LinearOrderedField K]

end Seam

theorem Equirectangular.e_scale (k : ℝ) (v : Vector3 ℝ) (hk : 0 < k) :
    Equirectangular.e (Vector3.scale k v) = Equirectangular.e v := by
  have hs : k * v.x * (k * v.x) + k * v.y * (k * v.y)
      = (k * k) * (v.x * v.x + v.y * v.y) := by ring
  simp only [Equirectangular.e, Vector3.scale]
  rw [hs, Real.sqrt_mul (mul_self_nonneg k), Real.sqrt_mul_self hk.le, atan2_scale _ _ _ hk]

theorem Equirectangular.d_scale (k : ℝ) (v : Vector3 ℝ) (hk : 0 < k) :
    Equirectangular.d (Vector3.scale k v) = Equirectangular.d v := by
  simp only [Equirectangular.d, Vector3.scale]
  rw [atan2_scale _ _ _ hk]

/-- Normalization multiplies the vector by the inverse of its length. -/
theorem Vector3.Normalize_eq_scale (v : Vector3 ℝ) :
    v.Normalize = Vector3.scale (1 / v.Length) v := by
  simp only [Vector3.Normalize, Vector3.scale, Vector3.ext_iff3]
  refine ⟨?_, ?_, ?_⟩ <;> ring

/-- C16: scale invariance of the sampler. For every vector `v` (non-zero or not) and every
real `k > 0`, `Equirectangular::GetColor` computes the same elevation, azimuth and lookup
coordinates `(px, py)` for `k * v` as for `v`, hence the same colour; consequently, for
every pixel of the destination, the colour the projector writes is the one the sampler
returns for the vector before normalization. -/
theorem Equirectangular.scale_invariant {C : Type} (Get : Image C → ℝ → ℝ → C)
    (src : Image C) (v : Vector3 ℝ) (k : ℝ) (hk : 0 < k) :
    Equirectangular.e (Vector3.scale k v) = Equirectangular.e v ∧
      Equirectangular.d (Vector3.scale k v) = Equirectangular.d v ∧
      Equirectangular.px src.Width (Vector3.scale k v) = Equirectangular.px src.Width v ∧
      Equirectangular.py src.Height (Vector3.scale k v)
        = Equirectangular.py src.Height v ∧
      Equirectangular.GetColor Get src (Vector3.scale k v)
        = Equirectangular.GetColor Get src v ∧
      (∀ W H x y : ℕ, x < W → y < H →
        Equirectangular.GetColor Get src (Out.direction W H x y)
          = Equirectangular.GetColor Get src (Out.vector ℝ W H x y)) ∧
      (∀ (dst : Image C) (x y : ℕ), x < dst.Width → y < dst.Height →
        (Out.construct dst (Equirectangular.GetColor Get src)).pixel y x
          = Equirectangular.GetColor Get src (Out.vector ℝ dst.Width dst.Height x y)) := by
  have all : ∀ (r : ℝ) (w : Vector3 ℝ), 0 < r →
      Equirectangular.GetColor Get src (Vector3.scale r w)
        = Equirectangular.GetColor Get src w := by
    intro r w hr
    simp only [Equirectangular.GetColor, Equirectangular.px, Equirectangular.py,
      Equirectangular.e_scale r w hr, Equirectangular.d_scale r w hr]
  have pix : ∀ W H x y : ℕ, x < W → y < H →
      Equirectangular.GetColor Get src (Out.direction W H x y)
        = Equirectangular.GetColor Get src (Out.vector ℝ W H x y) := by
    intro W H x y hx hy
    have hl : 0 < (Out.vector ℝ W H x y).Length :=
      Real.sqrt_pos.mpr (Out.vector_sq_pos W H x y hx hy)
    rw [Out.direction, Vector3.Normalize_eq_scale, all _ _ (one_div_pos.mpr hl)]
  have he := Equirectangular.e_scale k v hk
  have hd := Equirectangular.d_scale k v hk
  refine ⟨he, hd, ?_, ?_, all k v hk, pix, ?_⟩
  · rw [Equirectangular.px, hd, Equirectangular.px]
  · rw [Equirectangular.py, he, Equirectangular.py]
  · intro dst x y hx hy
    rw [(Out.construct_spec dst _).2.2 y x, if_pos ⟨hy, hx⟩]
    exact pix _ _ x y hx hy

/-- The vector (3, 4, 12) and its double are looked up in the same column. -/
theorem Equirectangular.scale_invariant_witness :
    Equirectangular.px 4 (Vector3.scale 2 ⟨3, 4, 12⟩) = Equirectangular.px 4 ⟨3, 4, 12⟩ :=
  (Equirectangular.scale_invariant (fun _ _ _ => (0 : ℕ)) ⟨4, 2, fun _ _ => 0⟩
    ⟨3, 4, 12⟩ 2 (by norm_num)).2.2.1

/-! ## The calls of `GetColor` made by the constructor -/

/-- A run of the logged inner loop body over the columns `l`: the image is the one of the
loop without log, and the log grows by the pixels of `l` in row `y`. -/
theorem Out.fillRowLogged_list {C : Type} (inp : Vector3 ℝ → C) (y : ℕ) (l : List ℕ) :
    ∀ st : Image C × List (ℕ × ℕ),
      (l.foldl (fun s x => (s.1.set y x (Out.GetColor s.1 inp x y), s.2 ++ [(x, y)])) st).1
          = l.foldl (fun img x => img.set y x (Out.GetColor img inp x y)) st.1 ∧
        (l.foldl (fun s x => (s.1.set y x (Out.GetColor s.1 inp x y), s.2 ++ [(x, y)])) st).2
          = st.2 ++ l.map (fun x => (x, y)) := by
  induction l with
  | nil => intro st; simp
  | cons a l ih =>
    intro st
    have h := ih (st.1.set y a (Out.GetColor st.1 inp a y), st.2 ++ [(a, y)])
    simp only [List.foldl_cons, List.map_cons]
    refine ⟨h.1, ?_⟩
    rw [h.2]
    simp

theorem Out.fillRowLogged_spec {C : Type} (inp : Vector3 ℝ → C) (y : ℕ)
    (st : Image C × List (ℕ × ℕ)) :
    (Out.fillRowLogged inp y st).1 = Out.fillRow inp y st.1 ∧
      (Out.fillRowLogged inp y st).2
        = st.2 ++ (List.range st.1.Width).map (fun x => (x, y)) :=
  Out.fillRowLogged_list inp y (List.range st.1.Width) st

/-- A run of the logged outer loop body over the rows `l`. -/
theorem Out.rowsLogged_list {C : Type} (inp : Vector3 ℝ → C) (l : List ℕ) :
    ∀ st : Image C × List (ℕ × ℕ),
      (l.foldl (fun s y => Out.fillRowLogged inp y s) st).1
          = l.foldl (fun img y => Out.fillRow inp y img) st.1 ∧
        (l.foldl (fun s y => Out.fillRowLogged inp y s) st).2
          = st.2 ++ l.flatMap (fun y => (List.range st.1.Width).map (fun x => (x, y))) := by
  induction l with
  | nil => intro st; simp
  | cons a l ih =>
    intro st
    have h := ih (Out.fillRowLogged inp a st)
    have hr := Out.fillRowLogged_spec inp a st
    have hw : (Out.fillRowLogged inp a st).1.Width = st.1.Width := by
      rw [hr.1, (Out.fillRow_spec inp a st.1).1]
    simp only [List.foldl_cons, List.flatMap_cons]
    rw [hw, hr.1, hr.2] at h
    refine ⟨h.1, ?_⟩
    rw [h.2, List.append_assoc]

/-- The logged constructor computes the image of `Out::Out`, and its log is the list of
all pixels of the image, row by row. -/
theorem Out.constructLogged_spec {C : Type} (i : Image C) (inp : Vector3 ℝ → C) :
    (Out.constructLogged i inp).1 = Out.construct i inp ∧
      (Out.constructLogged i inp).2
        = (List.range i.Height).flatMap
            (fun y => (List.range i.Width).map (fun x => (x, y))) := by
  have h := Out.rowsLogged_list inp (List.range i.Height) (i, [])
  simp only [List.nil_append] at h
  exact h

/-- Every logged call is for a pixel inside the image. -/
theorem Out.constructLogged_mem {C : Type} (i : Image C) (inp : Vector3 ℝ → C)
    (p : ℕ × ℕ) (hp : p ∈ (Out.constructLogged i inp).2) :
    p.1 < i.Width ∧ p.2 < i.Height := by
  rw [(Out.constructLogged_spec i inp).2, List.mem_flatMap] at hp
  obtain ⟨y, hy, hm⟩ := hp
  rw [List.mem_map] at hm
  obtain ⟨x, hx, rfl⟩ := hm
  exact ⟨List.mem_range.mp hx, List.mem_range.mp hy⟩

/-- Over an image without columns the inner loop does nothing. -/
theorem Out.fillRow_of_Width_zero {C : Type} (inp : Vector3 ℝ → C) (y : ℕ)
    (image : Image C) (h : image.Width = 0) : Out.fillRow inp y image = image := by
  unfold Out.fillRow
  rw [h]
  rfl

/-- Over an image without columns the outer loop does nothing. -/
theorem Out.rows_of_Width_zero {C : Type} (inp : Vector3 ℝ → C) (l : List ℕ) :
    ∀ image : Image C, image.Width = 0 →
      l.foldl (fun img y => Out.fillRow inp y img) image = image := by
  induction l with
  | nil => intro image _; rfl
  | cons a l ih =>
    intro image h
    rw [List.foldl_cons, Out.fillRow_of_Width_zero inp a image h]
    exact ih image h

/-- C17: zero-size safety. When the destination image has width 0 or height 0,
constructing the projector evaluates `Out::GetColor` for no pixel (the log of calls, each
of which calls the sampler once, is empty) and leaves the image unchanged. For an image of
any size, every evaluation of `Out::GetColor` is for a pixel `x < Width`, `y < Height`, so
the divisors `image.Width()` and `image.Height()` are not zero whenever it is evaluated. -/
theorem Out.construct_zero_size {C : Type} (i : Image C) (inp : Vector3 ℝ → C)
    (h0 : i.Width = 0 ∨ i.Height = 0) :
    (Out.constructLogged i inp).2 = [] ∧ (Out.constructLogged i inp).2.length = 0 ∧
      Out.construct i inp = i ∧
      (∀ j : Image C, (Out.constructLogged j inp).1 = Out.construct j inp ∧
        (Out.constructLogged j inp).2.length = j.Width * j.Height ∧
        ∀ p ∈ (Out.constructLogged j inp).2,
          (p.1 < j.Width ∧ p.2 < j.Height) ∧ j.Width ≠ 0 ∧ j.Height ≠ 0) := by
  have hlog : (Out.constructLogged i inp).2 = [] := by
    rw [(Out.constructLogged_spec i inp).2]
    rcases h0 with h | h
    · rw [h]; simp
    · rw [h]; simp
  have himg : Out.construct i inp = i := by
    rcases h0 with h | h
    · exact Out.rows_of_Width_zero inp _ i h
    · unfold Out.construct
      rw [h]
      rfl
  refine ⟨hlog, by rw [hlog]; rfl, himg, ?_⟩
  intro j
  refine ⟨(Out.constructLogged_spec j inp).1, ?_, ?_⟩
  · have hsum : ∀ l : List ℕ,
        (l.map (List.length ∘ fun y => (List.range j.Width).map (fun x => (x, y)))).sum
          = j.Width * l.length := by
      intro l
      induction l with
      | nil => simp
      | cons a l ih =>
        rw [List.map_cons, List.sum_cons, ih, List.length_cons]
        simp only [Function.comp, List.length_map, List.length_range]
        ring
    rw [(Out.constructLogged_spec j inp).2, List.length_flatMap, hsum, List.length_range]
  · intro p hp
    have hm := Out.constructLogged_mem j inp p hp
    exact ⟨hm, by omega, by omega⟩

/-- An image with three rows and no columns: no call of `GetColor`, image unchanged. -/
theorem Out.construct_zero_size_witness :
    (Out.constructLogged (⟨0, 3, fun _ _ => (7 : ℕ)⟩ : Image ℕ) (fun _ => 0)).2 = [] ∧
      Out.construct (⟨0, 3, fun _ _ => (7 : ℕ)⟩ : Image ℕ) (fun _ => 0)
        = ⟨0, 3, fun _ _ => 7⟩ :=
  ⟨(Out.construct_zero_size (⟨0, 3, fun _ _ => (7 : ℕ)⟩ : Image ℕ) (fun _ => 0)
      (Or.inl rfl)).1,
    (Out.construct_zero_size (⟨0, 3, fun _ _ => (7 : ℕ)⟩ : Image ℕ) (fun _ => 0)
      (Or.inl rfl)).2.2.1⟩

/-! ## Signed zeros: the projector -/

theorem SFloat.signbit_of_neg (a : SFloat) (h : a.val < 0) : a.signbit = true := by
  simp [SFloat.signbit, h]

theorem SFloat.signbit_of_pos (a : SFloat) (h : 0 < a.val) : a.signbit = false := by
  simp [SFloat.signbit, h, not_lt.mpr h.le]

theorem SFloat.signbit_of_zero (a : SFloat) (h : a.val = 0) : a.signbit = a.sign := by
  simp [SFloat.signbit, h]

theorem Out.xxS_val (W x : ℕ) : (Out.xxS W x).val = Out.xx ℝ W x := rfl

/-- The local `xx` is never `-0.0`: its sign bit is set exactly when it is negative. -/
theorem Out.xxS_signbit (W x : ℕ) :
    (Out.xxS W x).signbit = true ↔ (Out.xxS W x).val < 0 := by
  constructor
  · intro h
    by_contra hn
    rcases lt_or_eq_of_le (not_lt.mp hn) with hp | hz
    · rw [SFloat.signbit_of_pos _ hp] at h
      exact Bool.false_ne_true h
    · have hq : 0 < (SFloat.div (SFloat.mul SFloat.two (SFloat.ofNat x))
          (SFloat.ofNat W)).val := by
        have e : (Out.xxS W x).val
            = (SFloat.div (SFloat.mul SFloat.two (SFloat.ofNat x)) (SFloat.ofNat W)).val
              - 1 := rfl
        rw [e] at hz
        linarith
      rw [SFloat.signbit_of_zero _ hz.symm] at h
      have hs : (Out.xxS W x).sign
          = ((SFloat.div (SFloat.mul SFloat.two (SFloat.ofNat x))
              (SFloat.ofNat W)).signbit && !SFloat.one.signbit) := rfl
      rw [hs, SFloat.signbit_of_pos _ hq] at h
      simp at h
  · exact SFloat.signbit_of_neg _

/-- The vector with sign bits in terms of the local `xx` with sign bit. -/
theorem Out.vectorS_eq (W H x y : ℕ) :
    Out.vectorS W H x y =
      if (SFloat.sub (SFloat.sub SFloat.one (SFloat.abs (Out.xxS W x)))
          (SFloat.abs (Out.xxS H y))).val < 0 then
        ⟨SFloat.mul
            (SFloat.mul
              (SFloat.neg (if (Out.xxS W x).signbit = true then SFloat.negOne
                else SFloat.one))
              (if (Out.xxS H y).signbit = true then SFloat.negOne else SFloat.one))
            (Out.FoldS (SFloat.abs (Out.xxS H y))
              (if (Out.xxS H y).signbit = true then SFloat.negOne else SFloat.one)),
          SFloat.mul
            (SFloat.mul
              (if (Out.xxS W x).signbit = true then SFloat.negOne else SFloat.one)
              (if (Out.xxS H y).signbit = true then SFloat.negOne else SFloat.one))
            (Out.FoldS (SFloat.abs (Out.xxS W x))
              (if (Out.xxS W x).signbit = true then SFloat.negOne else SFloat.one)),
          SFloat.sub (SFloat.sub SFloat.one (SFloat.abs (Out.xxS W x)))
            (SFloat.abs (Out.xxS H y))⟩
      else
        ⟨SFloat.neg (Out.xxS W x), Out.xxS H y,
          SFloat.sub (SFloat.sub SFloat.one (SFloat.abs (Out.xxS W x)))
            (SFloat.abs (Out.xxS H y))⟩ := by
  rfl

theorem Out.hS_val (W H x y : ℕ) :
    (SFloat.sub (SFloat.sub SFloat.one (SFloat.abs (Out.xxS W x)))
      (SFloat.abs (Out.xxS H y))).val = Out.h ℝ W H x y := rfl

/-- The sign `sx` with sign bit has the value of the sign `sx` of the real model. -/
theorem Out.sxS_val (W x : ℕ) :
    (if (Out.xxS W x).signbit = true then SFloat.negOne else SFloat.one).val
      = Out.sx ℝ W x := by
  unfold Out.sx
  by_cases h : Out.xx ℝ W x < 0
  · have hs : (Out.xxS W x).signbit = true := (Out.xxS_signbit W x).mpr h
    rw [if_pos hs, if_pos h]; rfl
  · have hs : ¬ (Out.xxS W x).signbit = true := fun hb => h ((Out.xxS_signbit W x).mp hb)
    rw [if_neg hs, if_neg h]; rfl

/-- The values of the vector with sign bits are the vector of the real model. -/
theorem Out.vectorS_vals (W H x y : ℕ) :
    (Out.vectorS W H x y).vals = Out.vector ℝ W H x y := by
  rw [Out.vectorS_eq, Out.vector_eq, Out.hS_val]
  by_cases hh : Out.h ℝ W H x y < 0
  · rw [if_pos hh, if_pos hh]
    have e1 := Out.sxS_val W x
    have e2 : (if (Out.xxS H y).signbit = true then SFloat.negOne else SFloat.one).val
        = Out.sy ℝ H y := Out.sxS_val H y
    simp only [Vector3.vals, SFloat.mul, SFloat.neg, Out.FoldS, SFloat.sub, SFloat.abs, e1,
      e2, Out.hS_val, Out.xxS_val, Out.Fold, Vector3.ext_iff3]
    refine ⟨?_, ?_, rfl⟩
    · simp only [SFloat.one, Out.ay, Out.yy, Out.xx]
    · simp only [SFloat.one, Out.ax]
  · rw [if_neg hh, if_neg hh]
    rfl

theorem Vector3.NormalizeS_vals (v : Vector3 SFloat) :
    v.NormalizeS.vals = v.vals.Normalize := rfl

/-- Normalization keeps the sign bit of a component (the length being positive). -/
theorem Vector3.NormalizeS_signbit (v : Vector3 SFloat) (hl : 0 < v.vals.Length) :
    v.NormalizeS.x.signbit = v.x.signbit ∧ v.NormalizeS.y.signbit = v.y.signbit := by
  have key : ∀ a l : SFloat, 0 < l.val → (SFloat.div a l).signbit = a.signbit := by
    intro a l hpos
    rcases lt_trichotomy a.val 0 with h | h | h
    · rw [SFloat.signbit_of_neg a h,
        SFloat.signbit_of_neg _ (div_neg_of_neg_of_pos h hpos : (SFloat.div a l).val < 0)]
    · have hz : (SFloat.div a l).val = 0 := by
        show a.val / l.val = 0
        rw [h, zero_div]
      rw [SFloat.signbit_of_zero _ hz]
      show xor a.signbit l.signbit = a.signbit
      rw [SFloat.signbit_of_pos l hpos]
      simp
    · rw [SFloat.signbit_of_pos a h,
        SFloat.signbit_of_pos _ (div_pos h hpos : 0 < (SFloat.div a l).val)]
  have hl2 : 0 < (SFloat.sqrt (SFloat.add (SFloat.add (SFloat.mul v.x v.x)
      (SFloat.mul v.y v.y)) (SFloat.mul v.z v.z))).val := hl
  exact ⟨key _ _ hl2, key _ _ hl2⟩

/-- With signed zeros `atan2` ranges over the closed interval `[-π, π]`. -/
theorem SFloat.atan2_closed_range (y x : SFloat) :
    -Real.pi ≤ SFloat.atan2 y x ∧ SFloat.atan2 y x ≤ Real.pi := by
  have hpi := Real.pi_pos
  unfold SFloat.atan2
  split_ifs
  · exact ⟨le_refl _, by linarith⟩
  · exact ⟨by linarith, le_refl _⟩
  · exact ⟨(Complex.neg_pi_lt_arg _).le, Complex.arg_le_pi _⟩

/-- The azimuth of a vector whose second component is `+0.0` and whose first component
has its sign bit set is `π`. -/
theorem Equirectangular.dS_eq_pi (v : Vector3 SFloat) (hy : v.y.val = 0)
    (hys : v.y.signbit = false) (hx : v.x.signbit = true) :
    Equirectangular.dS v = Real.pi := by
  unfold Equirectangular.dS SFloat.atan2
  rw [if_pos ⟨hy, hx⟩, hys]
  simp

/-- The azimuth of a vector whose second component is `-0.0` and whose first component
has its sign bit set is `-π`. -/
theorem Equirectangular.dS_eq_neg_pi (v : Vector3 SFloat) (hy : v.y.val = 0)
    (hys : v.y.signbit = true) (hx : v.x.signbit = true) :
    Equirectangular.dS v = -Real.pi := by
  unfold Equirectangular.dS SFloat.atan2
  rw [if_pos ⟨hy, hx⟩, hys]
  simp

theorem Equirectangular.pxS_of_pi (W : ℕ) (v : Vector3 SFloat)
    (h : Equirectangular.dS v = Real.pi) : Equirectangular.pxS W v = (W : ℝ) := by
  rw [Equirectangular.pxS, h, div_self Real.pi_pos.ne.symm]
  ring

theorem Equirectangular.pxS_of_neg_pi (W : ℕ) (v : Vector3 SFloat)
    (h : Equirectangular.dS v = -Real.pi) : Equirectangular.pxS W v = 0 := by
  rw [Equirectangular.pxS, h, neg_div, div_self Real.pi_pos.ne.symm]
  ring

/-- The horizontal lookup coordinate lies in `[0, W]`. -/
theorem Equirectangular.pxS_range (W : ℕ) (v : Vector3 SFloat) :
    0 ≤ Equirectangular.pxS W v ∧ Equirectangular.pxS W v ≤ (W : ℝ) := by
  have hd := SFloat.atan2_closed_range v.y v.x
  have hpi := Real.pi_pos
  have hW0 : (0 : ℝ) ≤ (W : ℝ) := Nat.cast_nonneg W
  have h1 : -1 ≤ Equirectangular.dS v / Real.pi := by
    rw [le_div_iff₀ hpi]; unfold Equirectangular.dS; linarith [hd.1]
  have h2 : Equirectangular.dS v / Real.pi ≤ 1 := by
    rw [div_le_iff₀ hpi]; unfold Equirectangular.dS; linarith [hd.2]
  unfold Equirectangular.pxS
  constructor
  · have : 0 ≤ (Equirectangular.dS v / Real.pi + 1) * (W : ℝ) :=
      mul_nonneg (by linarith) hW0
    linarith
  · have : (Equirectangular.dS v / Real.pi + 1) * (W : ℝ) ≤ 2 * (W : ℝ) :=
      mul_le_mul_of_nonneg_right (by linarith) hW0
    linarith

/-- The direction with sign bits has the values of the direction of the real model. -/
theorem Out.directionS_vals (W H x y : ℕ) :
    (Out.directionS W H x y).vals = Out.direction W H x y := by
  rw [Out.directionS, Vector3.NormalizeS_vals, Out.vectorS_vals, Out.direction]

/-- For a pixel of the image, normalization keeps the sign bits of the vector. -/
theorem Out.directionS_signbit (W H x y : ℕ) (hx : x < W) (hy : y < H) :
    (Out.directionS W H x y).x.signbit = (Out.vectorS W H x y).x.signbit ∧
      (Out.directionS W H x y).y.signbit = (Out.vectorS W H x y).y.signbit := by
  apply Vector3.NormalizeS_signbit
  rw [Out.vectorS_vals]
  exact Real.sqrt_pos.mpr (Out.vector_sq_pos W H x y hx hy)

/-- In the upper branch the sign bits of the first two components are those of `-xx`
and `yy`. -/
theorem Out.vectorS_upper (W H x y : ℕ) (hh : ¬ Out.h ℝ W H x y < 0) :
    Out.vectorS W H x y = ⟨SFloat.neg (Out.xxS W x), Out.xxS H y,
      SFloat.sub (SFloat.sub SFloat.one (SFloat.abs (Out.xxS W x)))
        (SFloat.abs (Out.xxS H y))⟩ := by
  rw [Out.vectorS_eq, Out.hS_val, if_neg hh]

/-- The direction of the center pixel of an even side: `(-0.0, +0.0, 1)`. -/
theorem Out.directionS_center (S : ℕ) (hS : 2 ≤ S) (he : S % 2 = 0) :
    (Out.directionS S S (S / 2) (S / 2)).vals = ⟨0, 0, 1⟩ ∧
      (Out.directionS S S (S / 2) (S / 2)).x.signbit = true ∧
      (Out.directionS S S (S / 2) (S / 2)).y.signbit = false := by
  have hlt : S / 2 < S := by omega
  have e := Out.xx_half (K := ℝ) S hS he
  have ev : (Out.xxS S (S / 2)).val = 0 := e
  have hh : ¬ Out.h ℝ S S (S / 2) (S / 2) < 0 := by
    have : Out.h ℝ S S (S / 2) (S / 2) = 1 := by
      have ey : Out.yy ℝ S (S / 2) = 0 := e
      simp [Out.h, Out.ax, Out.ay, e, ey]
    rw [this]; norm_num
  have hsb := Out.directionS_signbit S S (S / 2) (S / 2) hlt hlt
  have hxs : ¬ (Out.xxS S (S / 2)).signbit = true := by
    rw [Out.xxS_signbit, ev]; exact lt_irrefl 0
  have hxs2 : (Out.xxS S (S / 2)).signbit = false := by
    simpa using hxs
  refine ⟨?_, ?_, ?_⟩
  · rw [Out.directionS_vals, Out.direction_center_even S hS he]
  · rw [hsb.1, Out.vectorS_upper _ _ _ _ hh]
    have hz : (SFloat.neg (Out.xxS S (S / 2))).val = 0 := by
      show -(Out.xxS S (S / 2)).val = 0
      rw [ev, neg_zero]
    rw [SFloat.signbit_of_zero _ hz]
    show (!(Out.xxS S (S / 2)).signbit) = true
    rw [hxs2]; rfl
  · rw [hsb.2, Out.vectorS_upper _ _ _ _ hh]
    exact hxs2

/-! ## End to end at the center pixel, and the range of the column coordinate -/

/-- C9 as amended, with the sign bits of zeros followed through: for every direction vector
(unit or not) and every source of width `W ≥ 1`, the horizontal coordinate
`px = (d/π + 1) * W/2` that `Equirectangular::GetColor` passes to the image lookup
satisfies `0 ≤ px ≤ W`. The upper end `px = W`, which is not a column of the image, is
reached by directions the projector produces: the center pixel of every even side. -/
theorem Equirectangular.pxS_mem (W : ℕ) (v : Vector3 SFloat) (hW : 1 ≤ W) :
    (0 ≤ Equirectangular.pxS W v ∧ Equirectangular.pxS W v ≤ (W : ℝ)) ∧
      (0 : ℝ) < (W : ℝ) ∧
      ∀ S : ℕ, 2 ≤ S → S % 2 = 0 →
        Equirectangular.pxS W (Out.directionS S S (S / 2) (S / 2)) = (W : ℝ) := by
  refine ⟨Equirectangular.pxS_range W v, by exact_mod_cast hW, ?_⟩
  intro S hS he
  have hc := Out.directionS_center S hS he
  have hval : (Out.directionS S S (S / 2) (S / 2)).y.val = 0 := congrArg Vector3.y hc.1
  exact Equirectangular.pxS_of_pi W _ (Equirectangular.dS_eq_pi _ hval hc.2.2 hc.2.1)

/-- The vector `(1, +0.0, +0.0)` on a source of width 4: `px` lies in `[0, 4]`. -/
theorem Equirectangular.pxS_mem_witness :
    0 ≤ Equirectangular.pxS 4 ⟨SFloat.one, SFloat.ofNat 0, SFloat.ofNat 0⟩ ∧
      Equirectangular.pxS 4 ⟨SFloat.one, SFloat.ofNat 0, SFloat.ofNat 0⟩ ≤ ((4 : ℕ) : ℝ) :=
  (Equirectangular.pxS_mem 4 ⟨SFloat.one, SFloat.ofNat 0, SFloat.ofNat 0⟩ (by decide)).1

/-- C9 fails for the unit vector `(-1, +0.0, +0.0)` on a source of width 4: its azimuth is
`π` and `px = 4`, which is not below the width. The projector produces such directions:
the pixel (3, 2) of a 4 × 4 destination, whose vector before normalization is
`(-1/2, +0.0, 1/2)`, is looked up at `px = 4` as well. -/
theorem Equirectangular.pxS_at_width :
    (Vector3.vals ⟨SFloat.negOne, SFloat.ofNat 0, SFloat.ofNat 0⟩).Length = 1 ∧ 1 ≤ 4 ∧
      Equirectangular.pxS 4 ⟨SFloat.negOne, SFloat.ofNat 0, SFloat.ofNat 0⟩ = 4 ∧
      ¬ (0 ≤ Equirectangular.pxS 4 ⟨SFloat.negOne, SFloat.ofNat 0, SFloat.ofNat 0⟩ ∧
        Equirectangular.pxS 4 ⟨SFloat.negOne, SFloat.ofNat 0, SFloat.ofNat 0⟩ < 4) ∧
      (Out.vectorS 4 4 3 2).vals = ⟨-(1 / 2), 0, 1 / 2⟩ ∧
      Equirectangular.pxS 4 (Out.directionS 4 4 3 2) = 4 := by
  have z0 : (SFloat.ofNat 0).val = 0 := by simp [SFloat.ofNat]
  have p1 : Equirectangular.pxS 4 ⟨SFloat.negOne, SFloat.ofNat 0, SFloat.ofNat 0⟩ = 4 := by
    have hd := Equirectangular.dS_eq_pi ⟨SFloat.negOne, SFloat.ofNat 0, SFloat.ofNat 0⟩ z0
      (by rw [SFloat.signbit_of_zero _ z0]; rfl)
      (SFloat.signbit_of_neg _ (by simp [SFloat.negOne]))
    rw [Equirectangular.pxS_of_pi 4 _ hd]; norm_num
  have e : Out.xx ℝ 4 3 = 1 / 2 := by norm_num [Out.xx]
  have ey : Out.yy ℝ 4 2 = 0 := by norm_num [Out.yy]
  have hh : Out.h ℝ 4 4 3 2 = 1 / 2 := by
    rw [Out.h, Out.ax, Out.ay, e, ey, abs_of_pos (by norm_num : (0 : ℝ) < 1 / 2), abs_zero]
    norm_num
  have hneg : ¬ Out.h ℝ 4 4 3 2 < 0 := by rw [hh]; norm_num
  have hv : Out.vector ℝ 4 4 3 2 = ⟨-(1 / 2), 0, 1 / 2⟩ := by
    rw [Out.vector_upper _ _ _ _ hneg, e, ey, hh]
  have hsb := Out.directionS_signbit 4 4 3 2 (by decide) (by decide)
  have hyv : (Out.directionS 4 4 3 2).y.val = 0 := by
    have h1 : (Out.directionS 4 4 3 2).vals.y = (Out.direction 4 4 3 2).y := by
      rw [Out.directionS_vals]
    have h2 : (Out.direction 4 4 3 2).y = 0 := by
      simp [Out.direction, Vector3.Normalize, hv]
    exact h1.trans h2
  have hys : (Out.directionS 4 4 3 2).y.signbit = false := by
    rw [hsb.2, Out.vectorS_upper _ _ _ _ hneg]
    have hn : ¬ (Out.xxS 4 2).signbit = true := by
      rw [Out.xxS_signbit, Out.xxS_val]
      have : Out.xx ℝ 4 2 = 0 := ey
      rw [this]; exact lt_irrefl 0
    simpa using hn
  have hxs : (Out.directionS 4 4 3 2).x.signbit = true := by
    rw [hsb.1, Out.vectorS_upper _ _ _ _ hneg]
    apply SFloat.signbit_of_neg
    show -(Out.xxS 4 3).val < 0
    rw [Out.xxS_val, e]; norm_num
  have p2 : Equirectangular.pxS 4 (Out.directionS 4 4 3 2) = 4 := by
    rw [Equirectangular.pxS_of_pi 4 _ (Equirectangular.dS_eq_pi _ hyv hys hxs)]; norm_num
  refine ⟨by simp [Vector3.Length, Vector3.vals, SFloat.negOne, SFloat.ofNat], by decide,
    p1, ?_, by rw [Out.vectorS_vals, hv], p2⟩
  rw [p1]
  intro h
  exact lt_irrefl _ h.2

/-- The lower end is reached as well: the unit vector `(-1, -0.0, +0.0)` has azimuth
`atan2 (-0.0, -1) = -π` and is looked up at `px = 0`. -/
theorem Equirectangular.pxS_at_zero :
    Equirectangular.pxS 4 ⟨SFloat.negOne, SFloat.neg (SFloat.ofNat 0), SFloat.ofNat 0⟩ = 0 := by
  have z0 : (SFloat.neg (SFloat.ofNat 0)).val = 0 := by simp [SFloat.neg, SFloat.ofNat]
  have s0 : (SFloat.neg (SFloat.ofNat 0)).signbit = true := by
    rw [SFloat.signbit_of_zero _ z0]
    show (!(SFloat.ofNat 0).signbit) = true
    rw [SFloat.signbit_of_zero _ (by simp [SFloat.ofNat])]
    rfl
  exact Equirectangular.pxS_of_neg_pi 4 _
    (Equirectangular.dS_eq_neg_pi _ z0 s0
      (SFloat.signbit_of_neg _ (by simp [SFloat.negOne])))

/-! ## Rounding to `float`: the seam at side 3 -/

theorem F32.roundEven_eq (t : ℚ) (m : ℤ) (h : |t - (m : ℚ)| < 1 / 2) :
    F32.roundEven t = m := by
  have h1 := (abs_lt.mp h).1
  have h2 := (abs_lt.mp h).2
  unfold F32.roundEven
  rcases le_or_lt (m : ℚ) t with hle | hlt
  · have hf : ⌊t⌋ = m := by
      rw [Int.floor_eq_iff]
      constructor
      · exact hle
      · linarith
    rw [hf, if_pos (by linarith)]
  · have hf : ⌊t⌋ = m - 1 := by
      rw [Int.floor_eq_iff]
      push_cast
      constructor <;> linarith
    rw [hf]
    push_cast
    rw [if_neg (by linarith), if_pos (by linarith)]
    ring

theorem F32.ulp_eq (q : ℚ) (e : ℤ) (h1 : (2 : ℚ) ^ e ≤ |q|)
    (h2 : |q| < (2 : ℚ) ^ (e + 1)) : F32.ulp q = (2 : ℚ) ^ (e - 23) := by
  have hpos : (0 : ℚ) < |q| := lt_of_lt_of_le (by positivity) h1
  have hl : Int.log 2 |q| = e := by
    have a1 : e ≤ Int.log 2 |q| := by
      rw [← Int.zpow_le_iff_le_log (by norm_num) hpos]
      exact_mod_cast h1
    have a2 : Int.log 2 |q| < e + 1 := by
      rw [← Int.lt_zpow_iff_log_lt (by norm_num) hpos]
      exact_mod_cast h2
    omega
  rw [F32.ulp, hl]

/-- The value of the rounding: for `q` in the binade of exponent `e`, the multiple
`m * 2 ^ (e - 23)` of the unit in the last place that is less than half a unit away. -/
theorem F32.round_eq (q : ℚ) (e m : ℤ) (h1 : (2 : ℚ) ^ e ≤ |q|)
    (h2 : |q| < (2 : ℚ) ^ (e + 1)) (hm : |q / (2 : ℚ) ^ (e - 23) - (m : ℚ)| < 1 / 2) :
    F32.round q = (m : ℚ) * (2 : ℚ) ^ (e - 23) := by
  have hpos : (0 : ℚ) < |q| := lt_of_lt_of_le (by positivity) h1
  have hq : q ≠ 0 := abs_pos.mp hpos
  rw [F32.round, if_neg hq, F32.ulp_eq q e h1 h2, F32.roundEven_eq _ m hm]

theorem F32.round_a : F32.round (5592405 / 16777216) = 5592405 / 16777216 := by
  rw [F32.round_eq (5592405 / 16777216) (-2) 11184810 (by norm_num [abs_of_pos])
    (by norm_num [abs_of_pos]) (by norm_num [abs_lt])]
  norm_num

end Octahedron
